import Mathlib

/-!
Shallow embedding of the Federated-LSTM-DSTGCRN repository
(src/MODELS/LSTM_DSTGCRN/LSTM_DSTGCRN.py and src/MODELS/HELPERS/normalization.py).

Scalars are modelled by `ℚ`.  The transcendental primitives of the code
(`torch.sigmoid`, `torch.tanh` and the elementwise power `** (-1/2)` used in
`get_laplacian`) are not rational functions, so they are abstracted as explicit
function parameters, bundled in `Prim`; every structural statement below is
proved for all instantiations of these primitives.  `F.relu` is exactly
`max · 0` and is modelled concretely.  Tensors are total functions on `Fin`
index types, matching the shapes of the corresponding torch tensors.
-/

/-- Abstract scalar primitives of the torch code: `sigmoid`, `tanh`, and
`rsqrt q` standing for `q ** (-1/2)` as used in `AVWGCN.get_laplacian`. -/
structure Prim where
  sigmoid : ℚ → ℚ
  tanh : ℚ → ℚ
  rsqrt : ℚ → ℚ

/-- Matrices with `n` rows and `m` columns, entries in `ℚ`. -/
abbrev Mat (n m : ℕ) : Type := Fin n → Fin m → ℚ

/-- Matrix product, `torch.matmul` on the last two axes. -/
def matMul {n m p : ℕ} (A : Mat n m) (B : Mat m p) : Mat n p :=
  fun i j => ∑ k, A i k * B k j

/-- Identity matrix, `torch.eye n`. -/
def eye (n : ℕ) : Mat n n := fun i j => if i = j then 1 else 0

/-- Zero matrix (used only as the default value of list indexing). -/
def zeroM (n m : ℕ) : Mat n m := fun _ _ => 0

/-- Diagonal matrix from a vector, `torch.diag_embed`. -/
def diagM {n : ℕ} (d : Fin n → ℚ) : Mat n n :=
  fun i j => if i = j then d i else 0

/-- Exact model of `torch.nn.functional.relu`. -/
def relu (q : ℚ) : ℚ := max q 0

/-- Row sums of a matrix (`torch.sum(graph, dim=-1)`). -/
def rowSum {n : ℕ} (A : Mat n n) : Fin n → ℚ := fun i => ∑ j, A i j

/-- Body of the `normalize` branch of `AVWGCN.get_laplacian`:
`graph = graph + I; D = diag_embed(rowsum(graph) ** (-1/2)); L = D @ graph @ D`. -/
def normalizedLaplacian {n : ℕ} (rsqrt : ℚ → ℚ) (graph I : Mat n n) : Mat n n :=
  let g : Mat n n := fun i j => graph i j + I i j
  matMul (matMul (diagM (fun i => rsqrt (rowSum g i))) g) (diagM (fun i => rsqrt (rowSum g i)))

/-- Model of the static method `AVWGCN.get_laplacian(graph, I, normalize=True)`.
With `normalize=False` the Python function raises `UnboundLocalError` (the local
`L` is returned without ever being assigned); this partiality is modelled by
`Option`, `none` standing for the raised exception. -/
def get_laplacian {n : ℕ} (rsqrt : ℚ → ℚ) (graph I : Mat n n) (normalize : Bool) :
    Option (Mat n n) :=
  if normalize then some (normalizedLaplacian rsqrt graph I) else none

/-! ## AVWGCN: the adaptive graph-convolution unit -/

/-- Learnable parameters of one `AVWGCN` module: `weights_pool`, `bias_pool`
and the three `nn.Linear` layers of the `fc` hypernetwork
(`fc1 : dimIn → H1`, `fc2 : H1 → H2`, `fc3 : H2 → E`). -/
structure AVWGCNParams (dIn dOut K E H1 H2 : ℕ) where
  weightsPool : Fin E → Fin K → Fin dIn → Fin dOut → ℚ
  biasPool : Fin E → Fin dOut → ℚ
  fc1w : Fin H1 → Fin dIn → ℚ
  fc1b : Fin H1 → ℚ
  fc2w : Fin H2 → Fin H1 → ℚ
  fc2b : Fin H2 → ℚ
  fc3w : Fin E → Fin H2 → ℚ
  fc3b : Fin E → ℚ

/-- Application of one `nn.Linear` layer to a vector. -/
def linApply {m n : ℕ} (W : Fin m → Fin n → ℚ) (b : Fin m → ℚ) (v : Fin n → ℚ) :
    Fin m → ℚ :=
  fun i => (∑ j, W i j * v j) + b i

/-- The `fc` hypernetwork of `AVWGCN`: `Linear, Sigmoid, Linear, Sigmoid, Linear`. -/
def fcApply {dIn dOut K E H1 H2 : ℕ} (P : Prim) (p : AVWGCNParams dIn dOut K E H1 H2)
    (v : Fin dIn → ℚ) : Fin E → ℚ :=
  linApply p.fc3w p.fc3b
    (fun j => P.sigmoid (linApply p.fc2w p.fc2b
      (fun k => P.sigmoid (linApply p.fc1w p.fc1b v k)) j))

/-- The support-building loop of the dynamic branch of `AVWGCN.forward`:
given the previous two list entries `p2, p1` it appends
`2 * torch.matmul(supports, support_set[-1]) - support_set[-2]`, `m` times. -/
def chebAux {n : ℕ} (L : Mat n n) : ℕ → Mat n n → Mat n n → List (Mat n n)
  | 0, _, _ => []
  | m + 1, p2, p1 =>
    let c : Mat n n := fun i j => 2 * matMul L p1 i j - p2 i j
    c :: chebAux L m p1 c

/-- The list `support_set` built by the dynamic branch: it starts as
`[supports1, supports]` and the loop `for k in range(2, cheb_k)` appends
`K - 2` further matrices. -/
def support_set {n : ℕ} (I L : Mat n n) (K : ℕ) : List (Mat n n) :=
  [I, L] ++ chebAux L (K - 2) I L

/-- Chebyshev polynomials of the Laplacian as the specification states them:
`T 0 = I`, `T 1 = L`, `T (k+2) = 2 * L * T (k+1) - T k`. -/
def chebPoly {n : ℕ} (I L : Mat n n) : ℕ → Mat n n
  | 0 => I
  | 1 => L
  | k + 2 => fun i j => 2 * matMul L (chebPoly I L (k + 1)) i j - chebPoly I L k i j

/-- Dynamic branch of `AVWGCN.forward` (`dynamic_embed` truthy): input
`x : (B, N, dIn)`, node embeddings `(B, N, E)`; returns `x_gconv : (B, N, dOut)`
and `supports[:, 1, :, :]`, the element of index 1 of the stacked support set. -/
def AVWGCN_forward_dynamic {B N dIn dOut K E H1 H2 : ℕ} (P : Prim)
    (p : AVWGCNParams dIn dOut K E H1 H2)
    (x : Fin B → Fin N → Fin dIn → ℚ) (emb : Fin B → Fin N → Fin E → ℚ) :
    (Fin B → Fin N → Fin dOut → ℚ) × (Fin B → Mat N N) :=
  let filt : Fin B → Fin N → Fin E → ℚ := fun b n => fcApply P p (x b n)
  let nodevec : Fin B → Fin N → Fin E → ℚ := fun b n d => P.tanh (emb b n d * filt b n d)
  let lap : Fin B → Mat N N := fun b =>
    normalizedLaplacian P.rsqrt
      (fun i j => relu (∑ d, nodevec b i d * nodevec b j d)) (eye N)
  let sup : Fin B → List (Mat N N) := fun b => support_set (eye N) (lap b) K
  let x_g : Fin B → ℕ → Fin N → Fin dIn → ℚ := fun b k n c =>
    ∑ m, (sup b).getD k (zeroM N N) n m * x b m c
  let weights : Fin B → Fin N → Fin K → Fin dIn → Fin dOut → ℚ := fun b n k i o =>
    ∑ d, emb b n d * p.weightsPool d k i o
  let bias : Fin B → Fin N → Fin dOut → ℚ := fun b n o => ∑ d, emb b n d * p.biasPool d o
  (fun b n o => (∑ k : Fin K, ∑ i, x_g b k.1 n i * weights b n k i o) + bias b n o,
   fun b => (sup b).getD 1 (zeroM N N))

/-- Static branch of `AVWGCN.forward` (`dynamic_embed` falsy): node embeddings
of shape `(N, E)` (after `squeeze`); the three supports are `supports1 = I`,
`supports2 = get_laplacian(relu(nodevec nodevec^T), supports1)` and
`supports3 = get_laplacian(relu(nodevec nodevec^T), supports2)`; the einsum
`"bnki,nkio->bno"` forces `cheb_k = 3`, so this branch is typed with `K = 3`.
The second return value is `supports[:, 1, :, :]` where `supports = x_g` of
shape `(B, N, 3, dIn)`, i.e. the slice of `x_g` at node index `1` (requiring
`1 < N`). -/
def AVWGCN_forward_static {B N dIn dOut E H1 H2 : ℕ} (P : Prim)
    (p : AVWGCNParams dIn dOut 3 E H1 H2) (hN : 1 < N)
    (x : Fin B → Fin N → Fin dIn → ℚ) (emb : Fin N → Fin E → ℚ) :
    (Fin B → Fin N → Fin dOut → ℚ) × (Fin B → Fin 3 → Fin dIn → ℚ) :=
  let filt : Fin B → Fin N → Fin E → ℚ := fun b n => fcApply P p (x b n)
  let nodevec : Fin B → Fin N → Fin E → ℚ := fun b n d => P.tanh (emb n d * filt b n d)
  let adj : Fin B → Mat N N := fun b i j => relu (∑ d, nodevec b i d * nodevec b j d)
  let supports2 : Fin B → Mat N N := fun b => normalizedLaplacian P.rsqrt (adj b) (eye N)
  let supports3 : Fin B → Mat N N := fun b => normalizedLaplacian P.rsqrt (adj b) (supports2 b)
  let x_g1 : Fin B → Fin N → Fin dIn → ℚ := fun b n c => ∑ m, eye N n m * x b m c
  let x_g2 : Fin B → Fin N → Fin dIn → ℚ := fun b n c => ∑ m, supports2 b n m * x b m c
  let x_g3 : Fin B → Fin N → Fin dIn → ℚ := fun b n c => ∑ m, supports3 b n m * x b m c
  let x_g : Fin B → Fin 3 → Fin N → Fin dIn → ℚ := fun b k =>
    if k.1 = 0 then x_g1 b else if k.1 = 1 then x_g2 b else x_g3 b
  let weights : Fin N → Fin 3 → Fin dIn → Fin dOut → ℚ := fun n k i o =>
    ∑ d, emb n d * p.weightsPool d k i o
  let bias : Fin N → Fin dOut → ℚ := fun n o => ∑ d, emb n d * p.biasPool d o
  (fun b n o => (∑ k : Fin 3, ∑ i, x_g b k n i * weights n k i o) + bias n o,
   fun b k c => x_g b k ⟨1, hN⟩ c)

/-- Graph convolution exactly as claim C1 words it, for the dynamic shapes:
`nodevec = tanh(node_embeddings * fc(x))`, adjacency
`relu(nodevec . nodevec^T)` normalized via `get_laplacian`, supports the
Chebyshev polynomials `T 0 .. T (K-1)` of the Laplacian, mixed by per-node
weights `emb ⬝ weights_pool` plus a per-node bias `emb ⬝ bias_pool`; alongside
the Laplacian itself (the support of index 1). -/
def spec_gconv_dynamic {B N dIn dOut K E H1 H2 : ℕ} (P : Prim)
    (p : AVWGCNParams dIn dOut K E H1 H2)
    (x : Fin B → Fin N → Fin dIn → ℚ) (emb : Fin B → Fin N → Fin E → ℚ) :
    (Fin B → Fin N → Fin dOut → ℚ) × (Fin B → Mat N N) :=
  let nodevec : Fin B → Fin N → Fin E → ℚ := fun b n d =>
    P.tanh (emb b n d * fcApply P p (x b n) d)
  let lap : Fin B → Mat N N := fun b =>
    normalizedLaplacian P.rsqrt
      (fun i j => relu (∑ d, nodevec b i d * nodevec b j d)) (eye N)
  (fun b n o =>
    (∑ k : Fin K, ∑ i, (∑ m, chebPoly (eye N) (lap b) k.1 n m * x b m i) *
      (∑ d, emb b n d * p.weightsPool d k i o)) +
    (∑ d, emb b n d * p.biasPool d o),
   lap)

/-- Graph convolution as claim C1 words it for the static shapes
(`node_embeddings : (N, E)` broadcast over the batch): the same Chebyshev
construction, `cheb_k` polynomial terms of the Laplacian mixed by per-node
weights and bias. -/
def spec_gconv_static {B N dIn dOut K E H1 H2 : ℕ} (P : Prim)
    (p : AVWGCNParams dIn dOut K E H1 H2)
    (x : Fin B → Fin N → Fin dIn → ℚ) (emb : Fin N → Fin E → ℚ) :
    Fin B → Fin N → Fin dOut → ℚ :=
  let nodevec : Fin B → Fin N → Fin E → ℚ := fun b n d =>
    P.tanh (emb n d * fcApply P p (x b n) d)
  let lap : Fin B → Mat N N := fun b =>
    normalizedLaplacian P.rsqrt
      (fun i j => relu (∑ d, nodevec b i d * nodevec b j d)) (eye N)
  fun b n o =>
    (∑ k : Fin K, ∑ i, (∑ m, chebPoly (eye N) (lap b) k.1 n m * x b m i) *
      (∑ d, emb n d * p.weightsPool d k i o)) +
    (∑ d, emb n d * p.biasPool d o)

/-! ## AGCRNCell: the GRU-style recurrent graph cell -/

/-- Concatenation along the last axis, `torch.cat((u, v), dim=-1)` on vectors. -/
def catVec {a b : ℕ} (u : Fin a → ℚ) (v : Fin b → ℚ) : Fin (a + b) → ℚ :=
  fun i => if h : i.1 < a then u ⟨i.1, h⟩ else v ⟨i.1 - a, by omega⟩

/-- Parameters of one `AGCRNCell`: the `gate` AVWGCN (output width `2 * dOut`)
and the `update` AVWGCN (output width `dOut`), both on input width
`dIn + dOut`. -/
structure AGCRNCellParams (dIn dOut K E H1 H2 : ℕ) where
  gate : AVWGCNParams (dIn + dOut) (2 * dOut) K E H1 H2
  update : AVWGCNParams (dIn + dOut) dOut K E H1 H2

/-- Model of `AGCRNCell.forward` in dynamic-embedding mode:
`z_r = sigmoid(gate(cat(x, state)))`, `(z, r) = split(z_r, hidden_dim)`,
`hc = tanh(update(cat(x, z * state)))`, returning
`h = r * state + (1 - r) * hc` together with the gate's adjacency output. -/
def AGCRNCell_forward {B N dIn dOut K E H1 H2 : ℕ} (P : Prim)
    (p : AGCRNCellParams dIn dOut K E H1 H2)
    (x : Fin B → Fin N → Fin dIn → ℚ) (state : Fin B → Fin N → Fin dOut → ℚ)
    (emb : Fin B → Fin N → Fin E → ℚ) :
    (Fin B → Fin N → Fin dOut → ℚ) × (Fin B → Mat N N) :=
  let inputAndState : Fin B → Fin N → Fin (dIn + dOut) → ℚ := fun b n =>
    catVec (x b n) (state b n)
  let gateOut := AVWGCN_forward_dynamic P p.gate inputAndState emb
  let z : Fin B → Fin N → Fin dOut → ℚ := fun b n o =>
    P.sigmoid (gateOut.1 b n ⟨o.1, by omega⟩)
  let r : Fin B → Fin N → Fin dOut → ℚ := fun b n o =>
    P.sigmoid (gateOut.1 b n ⟨dOut + o.1, by omega⟩)
  let candidate : Fin B → Fin N → Fin (dIn + dOut) → ℚ := fun b n =>
    catVec (x b n) (fun o => z b n o * state b n o)
  let hc : Fin B → Fin N → Fin dOut → ℚ := fun b n o =>
    P.tanh ((AVWGCN_forward_dynamic P p.update candidate emb).1 b n o)
  (fun b n o => r b n o * state b n o + (1 - r b n o) * hc b n o, gateOut.2)

/-! ## AVWDCRNN: the stacked recurrent encoder -/

/-- Per-layer loop over time: starting from `state = init_state[i]`, the cell
is applied at timesteps `0, 1, ..., m-1`, appending each new state to
`inner_states` and each adjacency to `adjmatrices` (Python lines 187-199).
Returns the current state, the `inner_states` list and the `adjmatrices`
list after `m` steps. -/
def layerSteps {B N T dIn dOut K E H1 H2 : ℕ} (P : Prim)
    (c : AGCRNCellParams dIn dOut K E H1 H2)
    (xs : Fin B → Fin T → Fin N → Fin dIn → ℚ)
    (emb : Fin B → Fin T → Fin N → Fin E → ℚ)
    (s0 : Fin B → Fin N → Fin dOut → ℚ) :
    ℕ → (Fin B → Fin N → Fin dOut → ℚ) ×
        List (Fin B → Fin N → Fin dOut → ℚ) × List (Fin B → Mat N N)
  | 0 => (s0, [], [])
  | m + 1 =>
    let r := layerSteps P c xs emb s0 m
    if h : m < T then
      let step := AGCRNCell_forward P c (fun b => xs b ⟨m, h⟩) r.1 (fun b => emb b ⟨m, h⟩)
      (step.1, r.2.1 ++ [step.1], r.2.2 ++ [step.2])
    else r

/-- The state reached after `t` timesteps of one layer. -/
def stateAfter {B N T dIn dOut K E H1 H2 : ℕ} (P : Prim)
    (c : AGCRNCellParams dIn dOut K E H1 H2)
    (xs : Fin B → Fin T → Fin N → Fin dIn → ℚ)
    (emb : Fin B → Fin T → Fin N → Fin E → ℚ)
    (s0 : Fin B → Fin N → Fin dOut → ℚ) (t : ℕ) :
    Fin B → Fin N → Fin dOut → ℚ :=
  (layerSteps P c xs emb s0 t).1

/-- One full layer of `AVWDCRNN.forward`: the output sequence
(`torch.stack(inner_states, dim=1)`), the final state, and the adjacency list. -/
def runLayer {B N T dIn dOut K E H1 H2 : ℕ} (P : Prim)
    (c : AGCRNCellParams dIn dOut K E H1 H2)
    (xs : Fin B → Fin T → Fin N → Fin dIn → ℚ)
    (emb : Fin B → Fin T → Fin N → Fin E → ℚ)
    (s0 : Fin B → Fin N → Fin dOut → ℚ) :
    (Fin B → Fin T → Fin N → Fin dOut → ℚ) ×
      (Fin B → Fin N → Fin dOut → ℚ) × List (Fin B → Mat N N) :=
  let r := layerSteps P c xs emb s0 T
  (fun b t n d => (r.2.1.getD t.1 s0) b n d, r.1, r.2.2)

/-- The adjacency matrix the cell produces at timestep `t` of one layer. -/
def layerAdjAt {B N T dIn dOut K E H1 H2 : ℕ} (P : Prim)
    (c : AGCRNCellParams dIn dOut K E H1 H2)
    (xs : Fin B → Fin T → Fin N → Fin dIn → ℚ)
    (emb : Fin B → Fin T → Fin N → Fin E → ℚ)
    (s0 : Fin B → Fin N → Fin dOut → ℚ) (t : Fin T) :
    Fin B → Mat N N :=
  (AGCRNCell_forward P c (fun b => xs b t) (stateAfter P c xs emb s0 t.1)
    (fun b => emb b t)).2

/-- The layer loop of `AVWDCRNN.forward` for the layers after the first:
`current_inputs` is replaced by each layer's output sequence, the final state
of each layer is appended to `output_hidden`, and `adjmatrices` is reset by
each layer so only the last layer's list survives. -/
def encodeRest {B N T dOut K E H1 H2 : ℕ} (P : Prim)
    (emb : Fin B → Fin T → Fin N → Fin E → ℚ) :
    List (AGCRNCellParams dOut dOut K E H1 H2 × (Fin B → Fin N → Fin dOut → ℚ)) →
    (Fin B → Fin T → Fin N → Fin dOut → ℚ) ×
      List (Fin B → Fin N → Fin dOut → ℚ) × List (Fin B → Mat N N) →
    (Fin B → Fin T → Fin N → Fin dOut → ℚ) ×
      List (Fin B → Fin N → Fin dOut → ℚ) × List (Fin B → Mat N N)
  | [], acc => acc
  | (c, s0) :: rest, acc =>
    let r := runLayer P c acc.1 emb s0
    encodeRest P emb rest (r.1, acc.2.1 ++ [r.2.1], r.2.2)

/-- Model of `AVWDCRNN.forward` in dynamic-embedding mode.  The first layer
(cell `c0`, input width `dIn`, initial state `s0`) is followed by the layers
`cs` (input width `dOut`, each paired with its initial state from
`init_state`).  Returns `current_inputs` (the last layer's output sequence),
`output_hidden` (the final state of each layer) and `adjmatrices` (the last
layer's adjacency list). -/
def AVWDCRNN_forward {B N T dIn dOut K E H1 H2 : ℕ} (P : Prim)
    (c0 : AGCRNCellParams dIn dOut K E H1 H2)
    (cs : List (AGCRNCellParams dOut dOut K E H1 H2 × (Fin B → Fin N → Fin dOut → ℚ)))
    (x : Fin B → Fin T → Fin N → Fin dIn → ℚ)
    (s0 : Fin B → Fin N → Fin dOut → ℚ)
    (emb : Fin B → Fin T → Fin N → Fin E → ℚ) :
    (Fin B → Fin T → Fin N → Fin dOut → ℚ) ×
      List (Fin B → Fin N → Fin dOut → ℚ) × List (Fin B → Mat N N) :=
  let r0 := runLayer P c0 x emb s0
  encodeRest P emb cs (r0.1, [r0.2.1], r0.2.2)

/-- Specification-side recursion for the stacked encoder: the output sequence
obtained by feeding each layer's full output sequence as the input sequence of
the next layer. -/
def chainOut {B N T dOut K E H1 H2 : ℕ} (P : Prim)
    (emb : Fin B → Fin T → Fin N → Fin E → ℚ) :
    List (AGCRNCellParams dOut dOut K E H1 H2 × (Fin B → Fin N → Fin dOut → ℚ)) →
    (Fin B → Fin T → Fin N → Fin dOut → ℚ) →
    Fin B → Fin T → Fin N → Fin dOut → ℚ
  | [], cur => cur
  | (c, s0) :: rest, cur => chainOut P emb rest (runLayer P c cur emb s0).1

/-- Specification-side recursion: the final hidden state of each layer in
order, each layer run on the previous layer's output sequence. -/
def chainFinals {B N T dOut K E H1 H2 : ℕ} (P : Prim)
    (emb : Fin B → Fin T → Fin N → Fin E → ℚ) :
    List (AGCRNCellParams dOut dOut K E H1 H2 × (Fin B → Fin N → Fin dOut → ℚ)) →
    (Fin B → Fin T → Fin N → Fin dOut → ℚ) →
    List (Fin B → Fin N → Fin dOut → ℚ)
  | [], _ => []
  | (c, s0) :: rest, cur =>
    (runLayer P c cur emb s0).2.1 :: chainFinals P emb rest (runLayer P c cur emb s0).1

/-- Specification-side recursion: the adjacency list of the last layer
(the accumulator is replaced by each successive layer's adjacency list). -/
def chainAdjs {B N T dOut K E H1 H2 : ℕ} (P : Prim)
    (emb : Fin B → Fin T → Fin N → Fin E → ℚ) :
    List (AGCRNCellParams dOut dOut K E H1 H2 × (Fin B → Fin N → Fin dOut → ℚ)) →
    (Fin B → Fin T → Fin N → Fin dOut → ℚ) →
    List (Fin B → Mat N N) →
    List (Fin B → Mat N N)
  | [], _, adjs => adjs
  | (c, s0) :: rest, cur, _ =>
    chainAdjs P emb rest (runLayer P c cur emb s0).1 (runLayer P c cur emb s0).2.2

/-! ## DynamicEmbedding: the time-varying node-embedding generator -/

/-- Flattening of a pair of indices (row-major), as in
`x.reshape(-1, x.shape[2], x.shape[3])` merging `(B, N)` into `B*N`. -/
def flatIdx {a b : ℕ} (i : Fin a) (j : Fin b) : Fin (a * b) :=
  ⟨i.1 * b + j.1, by
    have h1 : i.1 * b + j.1 < (i.1 + 1) * b := by
      have := j.2
      calc i.1 * b + j.1 < i.1 * b + b := by omega
        _ = (i.1 + 1) * b := by ring
    exact Nat.lt_of_lt_of_le h1 (Nat.mul_le_mul_right b i.2)⟩

/-- First component of the row-major unflattening of `Fin (a * b)`. -/
def unflat1 {a b : ℕ} (m : Fin (a * b)) : Fin a :=
  ⟨m.1 / b, by
    have h2 : m.1 < b * a := lt_of_lt_of_eq m.2 (Nat.mul_comm a b)
    exact Nat.div_lt_of_lt_mul h2⟩

/-- Second component of the row-major unflattening of `Fin (a * b)`. -/
def unflat2 {a b : ℕ} (m : Fin (a * b)) : Fin b :=
  ⟨m.1 % b, by
    have hb : 0 < b := by
      rcases Nat.eq_zero_or_pos b with h | h
      · subst h; have h2 := m.2; simp at h2
      · exact h
    exact Nat.mod_lt _ hb⟩

/-- Parameters of `DynamicEmbedding`: dispatch flags, the (abstract) `nn.GRU`
and `nn.LSTM` sequence models applied independently to each flattened batch
element, the `fc` layer after them, the `fc1`/`fc2` layers of the MLP branch,
and the (abstract) `nn.MultiheadAttention` self-attention over the time
dimension applied independently to each flattened batch element. -/
structure DynEmbParams (T dIn hNode E : ℕ) where
  gru_layer : Bool
  lstm_layer : Bool
  attention_layer : Bool
  gru : (Fin T → Fin dIn → ℚ) → Fin T → Fin hNode → ℚ
  lstm : (Fin T → Fin dIn → ℚ) → Fin T → Fin hNode → ℚ
  fcw : Fin E → Fin hNode → ℚ
  fcb : Fin E → ℚ
  fc1w : Fin hNode → Fin dIn → ℚ
  fc1b : Fin hNode → ℚ
  fc2w : Fin E → Fin hNode → ℚ
  fc2b : Fin E → ℚ
  attn : (Fin T → Fin E → ℚ) → Fin T → Fin E → ℚ

/-- Model of `DynamicEmbedding.forward`: the input `(B, T, N, dIn)` is permuted
and reshaped to `(B*N, T, dIn)`; each flattened sequence goes through the GRU
branch if `gru_layer`, else the LSTM branch if `lstm_layer`, else the
`fc2 ∘ fc1` MLP; ReLU is applied, then self-attention over time exactly when
`attention_layer`; the result is reshaped and permuted back to
`(B, T, N, E)`. -/
def DynamicEmbedding_forward {B N T dIn hNode E : ℕ} (de : DynEmbParams T dIn hNode E)
    (x : Fin B → Fin T → Fin N → Fin dIn → ℚ) : Fin B → Fin T → Fin N → Fin E → ℚ :=
  let flatX : Fin (B * N) → Fin T → Fin dIn → ℚ := fun m t c => x (unflat1 m) t (unflat2 m) c
  let branch : Fin (B * N) → Fin T → Fin E → ℚ :=
    if de.gru_layer then
      fun m t e => linApply de.fcw de.fcb (de.gru (flatX m) t) e
    else if de.lstm_layer then
      fun m t e => linApply de.fcw de.fcb (de.lstm (flatX m) t) e
    else
      fun m t e => linApply de.fc2w de.fc2b (linApply de.fc1w de.fc1b (flatX m t)) e
  if de.attention_layer then
    fun b t n e => de.attn (fun t2 e2 => relu (branch (flatIdx b n) t2 e2)) t e
  else
    fun b t n e => relu (branch (flatIdx b n) t e)

/-! ## LSTM_DSTGCRN: the top-level model -/

/-- Parameters of the top-level `LSTM_DSTGCRN` model (dynamic-embedding mode):
the `DynamicEmbedding` module, the encoder cells (`c0` for the first layer,
`cs` for the remaining ones) and the `end_conv` predictor, a
`nn.Conv2d(1, lookahead * dOut, kernel_size=(1, hid))` whose weight acts as a
linear map on the hidden axis. -/
structure LSTMParams (T N dIn hid K E H1 H2 hNode lookahead dOut : ℕ) where
  dyn : DynEmbParams T dIn hNode E
  c0 : AGCRNCellParams dIn hid K E H1 H2
  cs : List (AGCRNCellParams hid hid K E H1 H2)
  convw : Fin (lookahead * dOut) → Fin hid → ℚ
  convb : Fin (lookahead * dOut) → ℚ

/-- Model of `LSTM_DSTGCRN.forward` in dynamic-embedding mode: dynamic node
embeddings from the source, zero-initialized encoder states, the stacked
encoder, the slice `output[:, -1:, :, :]` of its output, the convolutional
head, and the reshape/permute to `(B, lookahead, N, dOut)`; the second return
value stacks the encoder's `adjmatrices` along `dim=1`. -/
def LSTM_DSTGCRN_forward {B T N dIn hid K E H1 H2 hNode lookahead dOut : ℕ} (P : Prim)
    (p : LSTMParams T N dIn hid K E H1 H2 hNode lookahead dOut) (hT : 0 < T)
    (source : Fin B → Fin T → Fin N → Fin dIn → ℚ) :
    (Fin B → Fin lookahead → Fin N → Fin dOut → ℚ) × (Fin B → Fin T → Mat N N) :=
  let emb := DynamicEmbedding_forward p.dyn source
  let zeros : Fin B → Fin N → Fin hid → ℚ := fun _ _ _ => 0
  let enc := AVWDCRNN_forward P p.c0 (p.cs.map (fun c => (c, zeros))) source zeros emb
  let lastH : Fin B → Fin N → Fin hid → ℚ := fun b n d => enc.1 b ⟨T - 1, by omega⟩ n d
  let convOut : Fin B → Fin (lookahead * dOut) → Fin N → ℚ := fun b oc n =>
    (∑ j, p.convw oc j * lastH b n j) + p.convb oc
  (fun b t n c => convOut b (flatIdx t c) n,
   fun b t => (enc.2.2.getD t.1 (fun _ _ _ => 0)) b)

/-! ## normalization.py: scalers and one-hot encoding -/

/-- Runtime kind of an array value: `np.ndarray` or `torch.Tensor`.  The
scalers in `normalization.py` dispatch on `isinstance` checks of this kind. -/
inductive TKind
  | np
  | torch
deriving DecidableEq

/-- A 1-dimensional array value together with its runtime kind.  Only the last
dimension matters for the scalers (all their arithmetic is elementwise, and
their slicing acts on the last axis), so leading dimensions are not modelled.
The `float32` cast performed by the torch conversions is modelled by an
abstract function parameter `cast` where it occurs. -/
structure Tensor where
  kind : TKind
  vals : List ℚ
deriving DecidableEq

/-- Elementwise combination of three equally long lists (an elementwise torch
or numpy expression in `data`, statistic one and statistic two). -/
def zipWith3 (f : ℚ → ℚ → ℚ → ℚ) : List ℚ → List ℚ → List ℚ → List ℚ
  | x :: xs, y :: ys, z :: zs => f x y z :: zipWith3 f xs ys zs
  | _, _, _ => []

/-- The `StandardScaler` of `normalization.py`, holding `self.mean` and
`self.std`. -/
structure StandardScaler where
  mean : Tensor
  std : Tensor
deriving DecidableEq

/-- `StandardScaler.transform`: `(data - self.mean) / self.std` elementwise. -/
def StandardScaler.transform (s : StandardScaler) (d : Tensor) : Tensor :=
  ⟨d.kind, zipWith3 (fun x m sd => (x - m) / sd) d.vals s.mean.vals s.std.vals⟩

/-- `StandardScaler.inverse_transform`, including its mutation of the scaler:
for numpy data and numpy statistics with differing last dimensions, the
statistics are sliced (`self.mean[..., : data.shape[-1]]`); for torch data and
numpy statistics, the statistics are replaced by their float32 torch
conversions (the cast modelled by `cast`); the returned pair is the scaler
state after the call and the value `(data * self.std) + self.mean`. -/
def StandardScaler.inverse_transform (cast : ℚ → ℚ) (s : StandardScaler) (d : Tensor) :
    StandardScaler × Tensor :=
  if d.kind = TKind.np ∧ s.mean.kind = TKind.np then
    let s2 : StandardScaler :=
      if d.vals.length ≠ s.mean.vals.length then
        ⟨⟨TKind.np, s.mean.vals.take d.vals.length⟩,
         ⟨TKind.np, s.std.vals.take d.vals.length⟩⟩
      else s
    (s2, ⟨d.kind, zipWith3 (fun x m sd => x * sd + m) d.vals s2.mean.vals s2.std.vals⟩)
  else if d.kind = TKind.torch ∧ s.mean.kind = TKind.np then
    let s2 : StandardScaler :=
      ⟨⟨TKind.torch, s.mean.vals.map cast⟩, ⟨TKind.torch, s.std.vals.map cast⟩⟩
    (s2, ⟨d.kind, zipWith3 (fun x m sd => x * sd + m) d.vals s2.mean.vals s2.std.vals⟩)
  else
    (s, ⟨d.kind, zipWith3 (fun x m sd => x * sd + m) d.vals s.mean.vals s.std.vals⟩)

/-- The `MinMax01Scaler` of `normalization.py`, holding `self.min` and
`self.max`. -/
structure MinMax01Scaler where
  min : Tensor
  max : Tensor

/-- `MinMax01Scaler.transform`: the source tests `np.sum(self.max == 0) > 0`
but computes the same expression `(data - self.min) / (self.max - self.min)`
in both branches. -/
def MinMax01Scaler.transform (s : MinMax01Scaler) (d : Tensor) : Tensor :=
  if 0 < s.max.vals.countP (fun q => q == 0) then
    ⟨d.kind, zipWith3 (fun x mn mx => (x - mn) / (mx - mn)) d.vals s.min.vals s.max.vals⟩
  else
    ⟨d.kind, zipWith3 (fun x mn mx => (x - mn) / (mx - mn)) d.vals s.min.vals s.max.vals⟩

/-- `MinMax01Scaler.inverse_transform`: converts numpy statistics to torch on
torch data, then returns `data * (self.max - self.min) + self.min`. -/
def MinMax01Scaler.inverse_transform (cast : ℚ → ℚ) (s : MinMax01Scaler) (d : Tensor) :
    MinMax01Scaler × Tensor :=
  let s2 : MinMax01Scaler :=
    if d.kind = TKind.torch ∧ s.min.kind = TKind.np then
      ⟨⟨TKind.torch, s.min.vals.map cast⟩, ⟨TKind.torch, s.max.vals.map cast⟩⟩
    else s
  (s2, ⟨d.kind, zipWith3 (fun x mn mx => x * (mx - mn) + mn) d.vals s2.min.vals s2.max.vals⟩)

/-- The `MinMax11Scaler` of `normalization.py`, holding `self.min` and
`self.max`. -/
structure MinMax11Scaler where
  min : Tensor
  max : Tensor

/-- `MinMax11Scaler.transform`: `((data - min) / (max - min)) * 2 - 1`. -/
def MinMax11Scaler.transform (s : MinMax11Scaler) (d : Tensor) : Tensor :=
  ⟨d.kind, zipWith3 (fun x mn mx => (x - mn) / (mx - mn) * 2 - 1) d.vals s.min.vals s.max.vals⟩

/-- `MinMax11Scaler.inverse_transform`: converts numpy statistics to torch on
torch data, then returns `((data + 1) / 2) * (max - min) + min`. -/
def MinMax11Scaler.inverse_transform (cast : ℚ → ℚ) (s : MinMax11Scaler) (d : Tensor) :
    MinMax11Scaler × Tensor :=
  let s2 : MinMax11Scaler :=
    if d.kind = TKind.torch ∧ s.min.kind = TKind.np then
      ⟨⟨TKind.torch, s.min.vals.map cast⟩, ⟨TKind.torch, s.max.vals.map cast⟩⟩
    else s
  (s2, ⟨d.kind, zipWith3 (fun x mn mx => (x + 1) / 2 * (mx - mn) + mn) d.vals s2.min.vals s2.max.vals⟩)

/-- The `ColumnMinMaxScaler`, holding `self.min` and `self.min_max`. -/
structure ColumnMinMaxScaler where
  min : List ℚ
  min_max : List ℚ

/-- The `ColumnMinMaxScaler` constructor: `self.min_max = max - self.min`
followed by `self.min_max[self.min_max == 0] = 1`. -/
def ColumnMinMaxScaler.ofMinMax (mn mx : List ℚ) : ColumnMinMaxScaler :=
  ⟨mn, (List.zipWith (fun a b => a - b) mx mn).map (fun q => if q = 0 then 1 else q)⟩

/-- `ColumnMinMaxScaler.transform`: `(data - self.min) / self.min_max`. -/
def ColumnMinMaxScaler.transform (s : ColumnMinMaxScaler) (d : List ℚ) : List ℚ :=
  zipWith3 (fun x mn mm => (x - mn) / mm) d s.min s.min_max

/-- Maximum entry of a column of a nonempty integer matrix (`column.max()`). -/
def colMax {L : ℕ} (hL : 0 < L) (col : Fin L → ℤ) : ℤ :=
  Finset.univ.sup' ⟨⟨0, hL⟩, Finset.mem_univ _⟩ col

/-- Minimum entry of a column of a nonempty integer matrix (`column.min()`). -/
def colMin {L : ℕ} (hL : 0 < L) (col : Fin L → ℤ) : ℤ :=
  Finset.univ.inf' ⟨⟨0, hL⟩, Finset.mem_univ _⟩ col

/-- Row `j` of the one-hot block built for one column by `one_hot_by_column`:
a zero row of width `max - min + 1` with a `1` written at index
`column[j] - min`. -/
def oneHotBlock {L : ℕ} (hL : 0 < L) (col : Fin L → ℤ) (j : Fin L) : List ℚ :=
  (List.range (colMax hL col - colMin hL col + 1).toNat).map
    (fun t => if (col j - colMin hL col).toNat = t then 1 else 0)

/-- Row `j` of the result of `one_hot_by_column`: the per-column one-hot
blocks concatenated left to right (`np.hstack`) in column order. -/
def one_hot_by_column {L C : ℕ} (hL : 0 < L) (data : Fin L → Fin C → ℤ) (j : Fin L) :
    List ℚ :=
  ((List.finRange C).map (fun i => oneHotBlock hL (fun r => data r i) j)).flatten

/-- Width `max_i - min_i + 1` of the one-hot block of column `i`. -/
def blockWidth {L C : ℕ} (hL : 0 < L) (data : Fin L → Fin C → ℤ) (i : Fin C) : ℕ :=
  (colMax hL (fun r => data r i) - colMin hL (fun r => data r i) + 1).toNat

/-- Offset of the one-hot block of column `i` inside a row of the result of
`one_hot_by_column`: the total width of the blocks to its left. -/
def blockOffset {L C : ℕ} (hL : 0 < L) (data : Fin L → Fin C → ℤ) (i : Fin C) : ℕ :=
  (((List.finRange C).map (blockWidth hL data)).take i.1).sum

/-- Adjacency of the final encoder layer at one timestep, as a function of
the whole layer stack: the last layer of `c0 :: cs` run on the output sequence
of the layers before it. -/
def chainLastAdjAt {B N T dIn dOut K E H1 H2 : ℕ} (P : Prim)
    (c0 : AGCRNCellParams dIn dOut K E H1 H2)
    (cs : List (AGCRNCellParams dOut dOut K E H1 H2 × (Fin B → Fin N → Fin dOut → ℚ)))
    (x : Fin B → Fin T → Fin N → Fin dIn → ℚ)
    (s0 : Fin B → Fin N → Fin dOut → ℚ)
    (emb : Fin B → Fin T → Fin N → Fin E → ℚ) (t : Fin T) :
    Fin B → Mat N N :=
  match cs.getLast? with
  | none => layerAdjAt P c0 x emb s0 t
  | some (c, s) =>
    layerAdjAt P c (chainOut P emb cs.dropLast (runLayer P c0 x emb s0).1) emb s t

/-! ## Concrete instances used by witnesses and counterexamples -/

/-- Instantiation of the abstract primitives by the identity function (any
instantiation works for the universally quantified theorems below). -/
def primId : Prim := ⟨fun q => q, fun q => q, fun q => q⟩

/-- Instantiation of the abstract primitives used by the counterexamples:
`sigmoid` and `tanh` are instantiated by the identity, and `rsqrt` agrees with
the true inverse square root on the values `9` and `1` at which it is
evaluated there (`9 ** (-1/2) = 1/3`, `1 ** (-1/2) = 1`). -/
def primCx : Prim :=
  ⟨fun q => q, fun q => q, fun q => if q = 9 then 1/3 else if q = 1 then 1 else 0⟩

/-- All-zero `AVWGCN` parameters of the given dimensions. -/
def avwZero (dIn dOut K E H1 H2 : ℕ) : AVWGCNParams dIn dOut K E H1 H2 :=
  ⟨fun _ _ _ _ => 0, fun _ _ => 0, fun _ _ => 0, fun _ => 0, fun _ _ => 0, fun _ => 0,
   fun _ _ => 0, fun _ => 0⟩

/-- Concrete `AVWGCN` parameters for the static-branch counterexample:
`fc` is constantly `(2, 0)` (zero weights, bias `(2, 0)` in `fc3`), and
`weights_pool` selects exactly the third support (`k = 2`) of embedding
channel `0`. -/
def gcnPC1 : AVWGCNParams 1 1 3 2 1 1 :=
  { avwZero 1 1 3 2 1 1 with
    weightsPool := fun d k _ _ => if d.1 = 0 ∧ k.1 = 2 then 1 else 0,
    fc3b := fun e => if e.1 = 0 then 2 else 0 }

/-- Concrete input (the first basis vector over two nodes) for the
static-branch counterexample. -/
def xC1 : Fin 1 → Fin 2 → Fin 1 → ℚ := fun _ n _ => if n.1 = 0 then 1 else 0

/-- Concrete static node embeddings `(1, 0)` per node for the static-branch
counterexample. -/
def embC1 : Fin 2 → Fin 2 → ℚ := fun _ d => if d.1 = 0 then 1 else 0

/-- All-zero `AVWGCN` parameters at the witness dimensions. -/
def gcnPW : AVWGCNParams 1 1 2 1 1 1 := avwZero 1 1 2 1 1 1

/-- A recurrent cell whose gate hypernetwork has constant output `2`
(all weights zero, `fc3` bias `2`). -/
def cellCxA : AGCRNCellParams 1 1 2 1 1 1 :=
  ⟨{ avwZero 2 2 2 1 1 1 with fc3b := fun _ => 2 }, avwZero 2 1 2 1 1 1⟩

/-- A recurrent cell with all-zero parameters (its gate hypernetwork has
constant output `0`, so its adjacency is the identity under `primCx`). -/
def cellCxB : AGCRNCellParams 1 1 2 1 1 1 :=
  ⟨avwZero 2 2 2 1 1 1, avwZero 2 1 2 1 1 1⟩

/-- Concrete `DynamicEmbedding` parameters (MLP branch, no attention) whose
output is constantly `1` (`fc2` bias `1`). -/
def dynCx : DynEmbParams 1 1 1 1 where
  gru_layer := false
  lstm_layer := false
  attention_layer := false
  gru := fun _ _ _ => 0
  lstm := fun _ _ _ => 0
  fcw := fun _ _ => 0
  fcb := fun _ => 0
  fc1w := fun _ _ => 0
  fc1b := fun _ => 0
  fc2w := fun _ _ => 0
  fc2b := fun _ => 1
  attn := fun f => f

/-- Concrete two-layer `LSTM_DSTGCRN` parameters for the adjacency
counterexample: the first encoder layer is `cellCxA` (non-identity adjacency),
the second is `cellCxB` (identity adjacency under `primCx`). -/
def lstmPCx : LSTMParams 1 2 1 1 2 1 1 1 1 1 1 where
  dyn := dynCx
  c0 := cellCxA
  cs := [cellCxB]
  convw := fun _ _ => 0
  convb := fun _ => 0

/-- Constant-one source tensor for the adjacency counterexample. -/
def srcCx : Fin 1 → Fin 1 → Fin 2 → Fin 1 → ℚ := fun _ _ _ _ => 1

/-- Concrete 2x2 integer array used by the one-hot witness. -/
def dataC7 : Fin 2 → Fin 2 → ℤ := fun r c => if c.1 = 0 then (r.1 : ℤ) else 5

/-! ## Theorems -/

/-- Multiplying by a diagonal matrix on both sides picks out
`d i * A i j * d j` entrywise. -/
lemma diag_mul_mul {n : ℕ} (d : Fin n → ℚ) (A : Mat n n) (i j : Fin n) :
    matMul (matMul (diagM d) A) (diagM d) i j = d i * A i j * d j := by
  have hrow : ∀ b : Fin n, matMul (diagM d) A i b = d i * A i b := by
    intro b
    simp [matMul, diagM, ite_mul, zero_mul, Finset.sum_ite_eq]
  simp only [matMul, diagM, hrow]
  simp [mul_ite, mul_zero, Finset.sum_ite_eq]

/-- C8: `AVWGCN.get_laplacian` is only defined when `normalize=True`: with
`normalize=False` it raises (modelled by `none`), and with `normalize=True` it
returns `D^(-1/2) (graph + I) D^(-1/2)` where `D` is the degree (row-sum)
matrix of `graph + I`. -/
theorem C8_get_laplacian_partial {n : ℕ} (rsqrt : ℚ → ℚ) (graph I : Mat n n) :
    get_laplacian rsqrt graph I false = none ∧
    get_laplacian rsqrt graph I true =
      some (fun i j =>
        rsqrt (∑ k, (graph i k + I i k)) * (graph i j + I i j) *
          rsqrt (∑ k, (graph j k + I j k))) := by
  refine ⟨rfl, ?_⟩
  simp only [get_laplacian, if_pos]
  congr 1
  funext i j
  simpa [rowSum] using diag_mul_mul (fun i => rsqrt (rowSum (fun a b => graph a b + I a b) i))
    (fun a b => graph a b + I a b) i j

/-- The support-building loop, started from two consecutive Chebyshev
polynomials, produces the following Chebyshev polynomials in order. -/
lemma chebAux_eq_map {n : ℕ} (I L : Mat n n) :
    ∀ (m k0 : ℕ),
      chebAux L m (chebPoly I L k0) (chebPoly I L (k0 + 1)) =
        (List.range m).map (fun j => chebPoly I L (k0 + 2 + j)) := by
  intro m
  induction m with
  | zero => intro k0; simp [chebAux]
  | succ m ih =>
    intro k0
    have hc : (fun i j => 2 * matMul L (chebPoly I L (k0 + 1)) i j - chebPoly I L k0 i j) =
        chebPoly I L (k0 + 2) := by
      rfl
    simp only [chebAux, hc]
    rw [List.range_succ_eq_map]
    simp only [List.map_cons, List.map_map]
    congr 1
    show chebAux L m (chebPoly I L (k0 + 1)) (chebPoly I L (k0 + 1 + 1)) = _
    rw [ih (k0 + 1)]
    apply List.map_congr_left
    intro a _
    have hx : k0 + 1 + 2 + a = k0 + 2 + (a + 1) := by omega
    simp [Function.comp, hx]

/-- For `cheb_k ≥ 2` the `support_set` list is exactly the first `K`
Chebyshev polynomials. -/
lemma support_set_eq_map {n : ℕ} (I L : Mat n n) (K : ℕ) (hK : 2 ≤ K) :
    support_set I L K = (List.range K).map (chebPoly I L) := by
  obtain ⟨m, rfl⟩ : ∃ m, K = m + 2 := ⟨K - 2, by omega⟩
  have h := chebAux_eq_map I L m 0
  simp only [support_set, Nat.add_sub_cancel]
  rw [show chebPoly I L 0 = I from rfl, show chebPoly I L 1 = L from rfl] at h
  rw [h]
  rw [List.range_succ_eq_map, List.range_succ_eq_map]
  simp only [List.map_cons, List.map_map, List.cons_append, List.nil_append]
  simp only [List.cons.injEq]
  refine ⟨rfl, rfl, ?_⟩
  apply List.map_congr_left
  intro a _
  have hx : 0 + 2 + a = a + 1 + 1 := by omega
  simp [Function.comp, hx]

/-- Indexing the support set below `K` yields the Chebyshev polynomial. -/
lemma support_set_getD {n : ℕ} (I L : Mat n n) (K k : ℕ) (hK : 2 ≤ K) (hk : k < K) :
    (support_set I L K).getD k (zeroM n n) = chebPoly I L k := by
  rw [support_set_eq_map I L K hK]
  rw [List.getD_eq_getElem?_getD]
  rw [List.getElem?_eq_getElem (by simpa using hk)]
  simp

/-- The element of index 1 of the support set is the Laplacian. -/
lemma support_set_getD_one {n : ℕ} (I L : Mat n n) (K : ℕ) :
    (support_set I L K).getD 1 (zeroM n n) = L := rfl

/-- C1 (amended): in the dynamic case (node embeddings of shape `(B, N, D)`),
`AVWGCN.forward` computes `nodevec = tanh(node_embeddings * fc(x))` with `fc`
the three-layer sigmoid hypernetwork, normalizes `relu(nodevec . nodevec^T)`
via `get_laplacian`, builds the supports as the truncated Chebyshev sequence
`T 0 = I`, `T 1 = L`, `T k = 2 L T (k-1) - T (k-2)` for `2 ≤ k < cheb_k`, and
mixes exactly `cheb_k` polynomial terms with per-node weights from
`weights_pool` and a per-node bias from `bias_pool`, for every `cheb_k ≥ 2`.
In the static case the code instead builds the three supports `I`,
`get_laplacian(A, I)` and `get_laplacian(A, get_laplacian(A, I))`
(see the counterexample). -/
theorem C1_dynamic_chebyshev {B N dIn dOut K E H1 H2 : ℕ} (P : Prim)
    (p : AVWGCNParams dIn dOut K E H1 H2) (hK : 2 ≤ K)
    (x : Fin B → Fin N → Fin dIn → ℚ) (emb : Fin B → Fin N → Fin E → ℚ) :
    AVWGCN_forward_dynamic P p x emb = spec_gconv_dynamic P p x emb := by
  have hsup : ∀ (L : Mat N N) (k : Fin K),
      (support_set (eye N) L K).getD k.1 (zeroM N N) = chebPoly (eye N) L k.1 :=
    fun L k => support_set_getD (eye N) L K k.1 hK k.2
  dsimp only [AVWGCN_forward_dynamic, spec_gconv_dynamic]
  refine Prod.ext ?_ ?_
  · funext b n o
    simp only [hsup]
  · rfl

/-- Witness for `C1_dynamic_chebyshev` at `cheb_k = 2` and concrete
parameters. -/
theorem C1_dynamic_chebyshev_witness :
    2 ≤ 2 ∧
      AVWGCN_forward_dynamic primId gcnPW
          (fun _ _ _ => (0 : ℚ) : Fin 1 → Fin 1 → Fin 1 → ℚ)
          (fun _ _ _ => (0 : ℚ) : Fin 1 → Fin 1 → Fin 1 → ℚ) =
        spec_gconv_dynamic primId gcnPW (fun _ _ _ => 0) (fun _ _ _ => 0) :=
  ⟨by decide,
   C1_dynamic_chebyshev primId gcnPW (by decide) (fun _ _ _ => 0) (fun _ _ _ => 0)⟩

/-- Counterexample to C1 as stated: in the static case (node embeddings of
shape `(N, D)`), `AVWGCN.forward` does not build the Chebyshev supports.  At
these concrete inputs the adjacency is `[[4,4],[4,4]]`, the code's third
support is `get_laplacian(A, get_laplacian(A, I))` with entry `41/81` at
`(0,0)`, while the Chebyshev polynomial `T 2 = 2 L^2 - I` has entry `1/81`
there, and the mixed outputs differ. -/
theorem C1_static_counterexample :
    (AVWGCN_forward_static primCx gcnPC1 (by omega) xC1 embC1).1 ≠
      spec_gconv_static primCx gcnPC1 xC1 embC1 := by
  intro h
  have h0 := congrFun (congrFun (congrFun h 0) 0) 0
  rw [show (AVWGCN_forward_static primCx gcnPC1 (by omega) xC1 embC1).1 0 0 0 = 41/81 from by
        norm_num [AVWGCN_forward_static, fcApply, linApply, primCx, gcnPC1, avwZero, xC1,
          embC1, normalizedLaplacian, matMul, diagM, rowSum, eye, relu, max_def,
          Fin.sum_univ_two, Fin.sum_univ_three],
      show spec_gconv_static primCx gcnPC1 xC1 embC1 0 0 0 = 1/81 from by
        norm_num [spec_gconv_static, fcApply, linApply, primCx, gcnPC1, avwZero, xC1,
          embC1, normalizedLaplacian, matMul, diagM, rowSum, eye, relu, max_def, chebPoly,
          Fin.sum_univ_two, Fin.sum_univ_three]] at h0
  norm_num at h0

/-- C3: `AGCRNCell.forward` implements a GRU-style gate around the graph
convolution unit: with `z_r = sigmoid(gate(cat(x, state)))` split into the
first half `z` and second half `r` along the last axis, and candidate
`hc = tanh(update(cat(x, z * state)))`, it returns
`h = r * state + (1 - r) * hc` together with the adjacency produced by the
gate's graph convolution. -/
theorem C3_cell_gru_gate {B N dIn dOut K E H1 H2 : ℕ} (P : Prim)
    (p : AGCRNCellParams dIn dOut K E H1 H2)
    (x : Fin B → Fin N → Fin dIn → ℚ) (state : Fin B → Fin N → Fin dOut → ℚ)
    (emb : Fin B → Fin N → Fin E → ℚ) :
    (∀ (b : Fin B) (n : Fin N) (o : Fin dOut),
      (AGCRNCell_forward P p x state emb).1 b n o =
        (let zr : Fin B → Fin N → Fin (dOut + dOut) → ℚ := fun b2 n2 i =>
          P.sigmoid ((AVWGCN_forward_dynamic P p.gate
            (fun b3 n3 => Fin.append (x b3 n3) (state b3 n3)) emb).1 b2 n2
              (Fin.cast (two_mul dOut).symm i))
         let z : Fin B → Fin N → Fin dOut → ℚ := fun b2 n2 o2 =>
          zr b2 n2 (Fin.castAdd dOut o2)
         let r : Fin B → Fin N → Fin dOut → ℚ := fun b2 n2 o2 =>
          zr b2 n2 (Fin.natAdd dOut o2)
         let hc : ℚ := P.tanh ((AVWGCN_forward_dynamic P p.update
            (fun b3 n3 => Fin.append (x b3 n3) (fun o3 => z b3 n3 o3 * state b3 n3 o3))
            emb).1 b n o)
         r b n o * state b n o + (1 - r b n o) * hc)) ∧
    (AGCRNCell_forward P p x state emb).2 =
      (AVWGCN_forward_dynamic P p.gate
        (fun b3 n3 => Fin.append (x b3 n3) (state b3 n3)) emb).2 := by
  have hcat : ∀ {a c : ℕ} (u : Fin a → ℚ) (v : Fin c → ℚ), catVec u v = Fin.append u v := by
    intro a c u v
    funext i
    simp only [catVec, Fin.append, Fin.addCases, Fin.castLT, Fin.subNat, eq_rec_constant]
    split <;> rfl
  constructor
  · intro b n o
    dsimp only [AGCRNCell_forward]
    simp only [hcat]
    rfl
  · dsimp only [AGCRNCell_forward]
    simp only [hcat]

/-- The `inner_states` list of one layer has one entry per elapsed timestep. -/
lemma layerSteps_states_length {B N T dIn dOut K E H1 H2 : ℕ} (P : Prim)
    (c : AGCRNCellParams dIn dOut K E H1 H2)
    (xs : Fin B → Fin T → Fin N → Fin dIn → ℚ)
    (emb : Fin B → Fin T → Fin N → Fin E → ℚ)
    (s0 : Fin B → Fin N → Fin dOut → ℚ) :
    ∀ m, m ≤ T → ((layerSteps P c xs emb s0 m).2.1).length = m := by
  intro m
  induction m with
  | zero => intro _; rfl
  | succ m ih =>
    intro hm
    have hmT : m < T := by omega
    simp only [layerSteps, dif_pos hmT, List.length_append, List.length_cons,
      List.length_nil, ih (by omega)]

/-- The `adjmatrices` list of one layer has one entry per elapsed timestep. -/
lemma layerSteps_adjs_length {B N T dIn dOut K E H1 H2 : ℕ} (P : Prim)
    (c : AGCRNCellParams dIn dOut K E H1 H2)
    (xs : Fin B → Fin T → Fin N → Fin dIn → ℚ)
    (emb : Fin B → Fin T → Fin N → Fin E → ℚ)
    (s0 : Fin B → Fin N → Fin dOut → ℚ) :
    ∀ m, m ≤ T → ((layerSteps P c xs emb s0 m).2.2).length = m := by
  intro m
  induction m with
  | zero => intro _; rfl
  | succ m ih =>
    intro hm
    have hmT : m < T := by omega
    simp only [layerSteps, dif_pos hmT, List.length_append, List.length_cons,
      List.length_nil, ih (by omega)]

/-- Entry `k` of the `inner_states` list is the state reached after `k + 1`
timesteps. -/
lemma layerSteps_states_getD {B N T dIn dOut K E H1 H2 : ℕ} (P : Prim)
    (c : AGCRNCellParams dIn dOut K E H1 H2)
    (xs : Fin B → Fin T → Fin N → Fin dIn → ℚ)
    (emb : Fin B → Fin T → Fin N → Fin E → ℚ)
    (s0 : Fin B → Fin N → Fin dOut → ℚ) :
    ∀ m k, k < m → m ≤ T →
      (layerSteps P c xs emb s0 m).2.1.getD k s0 = stateAfter P c xs emb s0 (k + 1) := by
  intro m
  induction m with
  | zero => intro k hk _; omega
  | succ m ih =>
    intro k hk hm
    have hmT : m < T := by omega
    simp only [layerSteps, dif_pos hmT]
    rcases Nat.lt_or_ge k m with h | h
    · rw [List.getD_append _ _ _ _ (by rw [layerSteps_states_length P c xs emb s0 m (by omega)]; exact h)]
      exact ih k h (by omega)
    · have hk2 : k = m := by omega
      subst hk2
      rw [List.getD_append_right _ _ _ _ (by rw [layerSteps_states_length P c xs emb s0 k (by omega)])]
      simp only [layerSteps_states_length P c xs emb s0 k (by omega), Nat.sub_self,
        List.getD_cons_zero]
      simp only [stateAfter, layerSteps, dif_pos hmT]

/-- Entry `k` of the `adjmatrices` list of one layer is the adjacency the cell
produces at timestep `k`. -/
lemma layerSteps_adjs_getD {B N T dIn dOut K E H1 H2 : ℕ} (P : Prim)
    (c : AGCRNCellParams dIn dOut K E H1 H2)
    (xs : Fin B → Fin T → Fin N → Fin dIn → ℚ)
    (emb : Fin B → Fin T → Fin N → Fin E → ℚ)
    (s0 : Fin B → Fin N → Fin dOut → ℚ) :
    ∀ m k, ∀ hk : k < m, ∀ hm : m ≤ T,
      (layerSteps P c xs emb s0 m).2.2.getD k (fun _ _ _ => 0) =
        layerAdjAt P c xs emb s0 ⟨k, by omega⟩ := by
  intro m
  induction m with
  | zero => intro k hk _; omega
  | succ m ih =>
    intro k hk hm
    have hmT : m < T := by omega
    simp only [layerSteps, dif_pos hmT]
    rcases Nat.lt_or_ge k m with h | h
    · rw [List.getD_append _ _ _ _ (by rw [layerSteps_adjs_length P c xs emb s0 m (by omega)]; exact h)]
      exact ih k h (by omega)
    · have hk2 : k = m := by omega
      subst hk2
      rw [List.getD_append_right _ _ _ _ (by rw [layerSteps_adjs_length P c xs emb s0 k (by omega)])]
      simp only [layerSteps_adjs_length P c xs emb s0 k (by omega), Nat.sub_self,
        List.getD_cons_zero]
      rfl

/-- The output sequence of one layer is, at each timestep `t`, the state
reached after `t + 1` applications of the cell. -/
lemma runLayer_out {B N T dIn dOut K E H1 H2 : ℕ} (P : Prim)
    (c : AGCRNCellParams dIn dOut K E H1 H2)
    (xs : Fin B → Fin T → Fin N → Fin dIn → ℚ)
    (emb : Fin B → Fin T → Fin N → Fin E → ℚ)
    (s0 : Fin B → Fin N → Fin dOut → ℚ) (b : Fin B) (t : Fin T) :
    (runLayer P c xs emb s0).1 b t = stateAfter P c xs emb s0 (t.1 + 1) b := by
  funext n dd
  simp only [runLayer, layerSteps_states_getD P c xs emb s0 T t.1 t.2 (le_refl T)]

/-- The state after `t + 1` timesteps is the cell applied at timestep `t` to
the state after `t` timesteps. -/
lemma stateAfter_succ {B N T dIn dOut K E H1 H2 : ℕ} (P : Prim)
    (c : AGCRNCellParams dIn dOut K E H1 H2)
    (xs : Fin B → Fin T → Fin N → Fin dIn → ℚ)
    (emb : Fin B → Fin T → Fin N → Fin E → ℚ)
    (s0 : Fin B → Fin N → Fin dOut → ℚ) (t : ℕ) (ht : t < T) :
    stateAfter P c xs emb s0 (t + 1) =
      (AGCRNCell_forward P c (fun b => xs b ⟨t, ht⟩)
        (stateAfter P c xs emb s0 t) (fun b => emb b ⟨t, ht⟩)).1 := by
  simp only [stateAfter, layerSteps, dif_pos ht]

/-- The adjacency list of one layer indexed at a timestep. -/
lemma runLayer_adjs_getD {B N T dIn dOut K E H1 H2 : ℕ} (P : Prim)
    (c : AGCRNCellParams dIn dOut K E H1 H2)
    (xs : Fin B → Fin T → Fin N → Fin dIn → ℚ)
    (emb : Fin B → Fin T → Fin N → Fin E → ℚ)
    (s0 : Fin B → Fin N → Fin dOut → ℚ) (t : Fin T) :
    (runLayer P c xs emb s0).2.2.getD t.1 (fun _ _ _ => 0) =
      layerAdjAt P c xs emb s0 t := by
  have h := layerSteps_adjs_getD P c xs emb s0 T t.1 t.2 (le_refl T)
  simpa only [runLayer] using h

/-- The adjacency list of one layer has length `T`. -/
lemma runLayer_adjs_length {B N T dIn dOut K E H1 H2 : ℕ} (P : Prim)
    (c : AGCRNCellParams dIn dOut K E H1 H2)
    (xs : Fin B → Fin T → Fin N → Fin dIn → ℚ)
    (emb : Fin B → Fin T → Fin N → Fin E → ℚ)
    (s0 : Fin B → Fin N → Fin dOut → ℚ) :
    (runLayer P c xs emb s0).2.2.length = T :=
  layerSteps_adjs_length P c xs emb s0 T (le_refl T)

/-- The accumulator-threading loop over the remaining layers computes the
specification-side recursions `chainOut`, `chainFinals` and `chainAdjs`. -/
lemma encodeRest_spec {B N T dOut K E H1 H2 : ℕ} (P : Prim)
    (emb : Fin B → Fin T → Fin N → Fin E → ℚ) :
    ∀ (cs : List (AGCRNCellParams dOut dOut K E H1 H2 × (Fin B → Fin N → Fin dOut → ℚ)))
      (cur : Fin B → Fin T → Fin N → Fin dOut → ℚ)
      (hids : List (Fin B → Fin N → Fin dOut → ℚ)) (adjs : List (Fin B → Mat N N)),
      encodeRest P emb cs (cur, hids, adjs) =
        (chainOut P emb cs cur, hids ++ chainFinals P emb cs cur,
         chainAdjs P emb cs cur adjs) := by
  intro cs
  induction cs with
  | nil =>
    intro cur hids adjs
    simp [encodeRest, chainOut, chainFinals, chainAdjs]
  | cons p rest ih =>
    intro cur hids adjs
    obtain ⟨c, s⟩ := p
    simp only [encodeRest, chainOut, chainFinals, chainAdjs]
    rw [ih]
    simp [List.append_assoc]

/-- The number of per-layer final states produced by the specification-side
recursion equals the number of layers it processes. -/
lemma chainFinals_length {B N T dOut K E H1 H2 : ℕ} (P : Prim)
    (emb : Fin B → Fin T → Fin N → Fin E → ℚ) :
    ∀ (cs : List (AGCRNCellParams dOut dOut K E H1 H2 × (Fin B → Fin N → Fin dOut → ℚ)))
      (cur : Fin B → Fin T → Fin N → Fin dOut → ℚ),
      (chainFinals P emb cs cur).length = cs.length := by
  intro cs
  induction cs with
  | nil => intro cur; rfl
  | cons p rest ih =>
    intro cur
    obtain ⟨c, s⟩ := p
    simp only [chainFinals, List.length_cons, ih]

/-- The surviving adjacency list of the layer chain is that of its last
layer, run on the output sequence of the layers before it. -/
lemma chainAdjs_concat {B N T dOut K E H1 H2 : ℕ} (P : Prim)
    (emb : Fin B → Fin T → Fin N → Fin E → ℚ) :
    ∀ (cs : List (AGCRNCellParams dOut dOut K E H1 H2 × (Fin B → Fin N → Fin dOut → ℚ)))
      (p : AGCRNCellParams dOut dOut K E H1 H2 × (Fin B → Fin N → Fin dOut → ℚ))
      (cur : Fin B → Fin T → Fin N → Fin dOut → ℚ) (adjs : List (Fin B → Mat N N)),
      chainAdjs P emb (cs ++ [p]) cur adjs =
        (runLayer P p.1 (chainOut P emb cs cur) emb p.2).2.2 := by
  intro cs
  induction cs with
  | nil =>
    intro p cur adjs
    obtain ⟨c, s⟩ := p
    simp [chainAdjs, chainOut]
  | cons q rest ih =>
    intro p cur adjs
    obtain ⟨c, s⟩ := q
    simp only [List.cons_append, chainAdjs, chainOut]
    exact ih p _ _

/-- C4: `AVWDCRNN.forward` applies the recurrent cell across all `T` timesteps
of each layer (the output sequence at timestep `t` is the state after `t + 1`
cell applications, each step applying the cell to the previous state), feeds
each layer's full output sequence as the input sequence of the next layer
(the `chainOut`/`chainFinals` recursions), and returns the last layer's
outputs for all timesteps together with the list of the final hidden states
of all `num_layers = 1 + cs.length` layers. -/
theorem C4_stacked_encoder {B N T dIn dOut K E H1 H2 : ℕ} (P : Prim)
    (c0 : AGCRNCellParams dIn dOut K E H1 H2)
    (cs : List (AGCRNCellParams dOut dOut K E H1 H2 × (Fin B → Fin N → Fin dOut → ℚ)))
    (x : Fin B → Fin T → Fin N → Fin dIn → ℚ)
    (s0 : Fin B → Fin N → Fin dOut → ℚ)
    (emb : Fin B → Fin T → Fin N → Fin E → ℚ) :
    (AVWDCRNN_forward P c0 cs x s0 emb).1 = chainOut P emb cs (runLayer P c0 x emb s0).1 ∧
    (AVWDCRNN_forward P c0 cs x s0 emb).2.1 =
      (runLayer P c0 x emb s0).2.1 :: chainFinals P emb cs (runLayer P c0 x emb s0).1 ∧
    (AVWDCRNN_forward P c0 cs x s0 emb).2.1.length = 1 + cs.length ∧
    (∀ (b : Fin B) (t : Fin T),
      (runLayer P c0 x emb s0).1 b t = stateAfter P c0 x emb s0 (t.1 + 1) b) ∧
    (∀ (t : ℕ), ∀ ht : t < T,
      stateAfter P c0 x emb s0 (t + 1) =
        (AGCRNCell_forward P c0 (fun b => x b ⟨t, ht⟩)
          (stateAfter P c0 x emb s0 t) (fun b => emb b ⟨t, ht⟩)).1) ∧
    (runLayer P c0 x emb s0).2.1 = stateAfter P c0 x emb s0 T ∧
    (∀ (c : AGCRNCellParams dOut dOut K E H1 H2)
       (xs2 : Fin B → Fin T → Fin N → Fin dOut → ℚ)
       (s2 : Fin B → Fin N → Fin dOut → ℚ) (b : Fin B) (t : Fin T),
      (runLayer P c xs2 emb s2).1 b t = stateAfter P c xs2 emb s2 (t.1 + 1) b) := by
  have henc := encodeRest_spec P emb cs (runLayer P c0 x emb s0).1
    [(runLayer P c0 x emb s0).2.1] (runLayer P c0 x emb s0).2.2
  refine ⟨?_, ?_, ?_, ?_, ?_, ?_, ?_⟩
  · show (encodeRest P emb cs _).1 = _
    rw [henc]
  · show (encodeRest P emb cs _).2.1 = _
    rw [henc]
    simp
  · show (encodeRest P emb cs _).2.1.length = _
    rw [henc]
    simp [chainFinals_length]
    omega
  · exact runLayer_out P c0 x emb s0
  · exact fun t ht => stateAfter_succ P c0 x emb s0 t ht
  · rfl
  · exact fun c xs2 s2 => runLayer_out P c xs2 emb s2

/-- The adjacency list returned by the stacked encoder is exactly the last
layer's list: it has length `T` and its entry at each timestep `t` is the
adjacency produced at `t` by the final layer of the stack. -/
lemma encoder_adjs_spec {B N T dIn dOut K E H1 H2 : ℕ} (P : Prim)
    (c0 : AGCRNCellParams dIn dOut K E H1 H2)
    (cs : List (AGCRNCellParams dOut dOut K E H1 H2 × (Fin B → Fin N → Fin dOut → ℚ)))
    (x : Fin B → Fin T → Fin N → Fin dIn → ℚ)
    (s0 : Fin B → Fin N → Fin dOut → ℚ)
    (emb : Fin B → Fin T → Fin N → Fin E → ℚ) :
    (AVWDCRNN_forward P c0 cs x s0 emb).2.2.length = T ∧
    (∀ t : Fin T,
      (AVWDCRNN_forward P c0 cs x s0 emb).2.2.getD t.1 (fun _ _ _ => 0) =
        chainLastAdjAt P c0 cs x s0 emb t) := by
  have henc := encodeRest_spec P emb cs (runLayer P c0 x emb s0).1
    [(runLayer P c0 x emb s0).2.1] (runLayer P c0 x emb s0).2.2
  have hres : (AVWDCRNN_forward P c0 cs x s0 emb).2.2 =
      chainAdjs P emb cs (runLayer P c0 x emb s0).1 (runLayer P c0 x emb s0).2.2 := by
    show (encodeRest P emb cs _).2.2 = _
    rw [henc]
  rcases List.eq_nil_or_concat cs with hcs | ⟨l, p, hcs⟩
  · subst hcs
    rw [hres]
    refine ⟨runLayer_adjs_length P c0 x emb s0, ?_⟩
    intro t
    rw [show chainAdjs P emb [] (runLayer P c0 x emb s0).1 (runLayer P c0 x emb s0).2.2 =
        (runLayer P c0 x emb s0).2.2 from rfl]
    rw [runLayer_adjs_getD P c0 x emb s0 t]
    rfl
  · rw [List.concat_eq_append] at hcs
    subst hcs
    obtain ⟨c, s⟩ := p
    rw [hres, chainAdjs_concat P emb l (c, s)]
    refine ⟨runLayer_adjs_length P c _ emb s, ?_⟩
    intro t
    rw [runLayer_adjs_getD P c _ emb s t]
    simp only [chainLastAdjAt, List.getLast?_concat, List.dropLast_concat]

/-- C2 (amended): `LSTM_DSTGCRN.forward` feeds the node embeddings generated
from the source and the source itself through the stacked encoder with
zero-initialized states, keeps only the last-timestep hidden state of the
encoder output, applies the convolutional prediction head `end_conv` (the
prediction at `(b, t, n, c)` reads output channel `t * output_dim + c` of the
convolution of the last-timestep hidden state), and returns the
`(B, lookahead, N, output_dim)` prediction together with the adjacency
matrices per timestep of the LAST encoder layer (not of every layer; see the
counterexample). -/
theorem C2_forward_pipeline {B T N dIn hid K E H1 H2 hNode lookahead dOut : ℕ} (P : Prim)
    (p : LSTMParams T N dIn hid K E H1 H2 hNode lookahead dOut) (hT : 0 < T)
    (source : Fin B → Fin T → Fin N → Fin dIn → ℚ) :
    (∀ (b : Fin B) (t : Fin lookahead) (n : Fin N) (c : Fin dOut),
      (LSTM_DSTGCRN_forward P p hT source).1 b t n c =
        (∑ j, p.convw (flatIdx t c) j *
          (AVWDCRNN_forward P p.c0 (p.cs.map (fun c2 => (c2, fun _ _ _ => 0))) source
            (fun _ _ _ => 0) (DynamicEmbedding_forward p.dyn source)).1 b ⟨T - 1, by omega⟩ n j) +
          p.convb (flatIdx t c)) ∧
    (∀ (b : Fin B) (t : Fin T),
      (LSTM_DSTGCRN_forward P p hT source).2 b t =
        chainLastAdjAt P p.c0 (p.cs.map (fun c2 => (c2, fun _ _ _ => 0))) source
          (fun _ _ _ => 0) (DynamicEmbedding_forward p.dyn source) t b) := by
  constructor
  · intro b t n c
    rfl
  · intro b t
    have h := (encoder_adjs_spec P p.c0 (p.cs.map (fun c2 => (c2, fun _ _ _ => 0))) source
      (fun _ _ _ => 0) (DynamicEmbedding_forward p.dyn source)).2 t
    show (AVWDCRNN_forward P p.c0 _ source _ _).2.2.getD t.1 (fun _ _ _ => 0) b = _
    rw [h]

/-- Witness for `C2_forward_pipeline` at a concrete two-layer model. -/
theorem C2_forward_pipeline_witness :
    0 < 1 ∧
    ((∀ (b : Fin 1) (t : Fin 1) (n : Fin 2) (c : Fin 1),
      (LSTM_DSTGCRN_forward primCx lstmPCx (by omega) srcCx).1 b t n c =
        (∑ j, lstmPCx.convw (flatIdx t c) j *
          (AVWDCRNN_forward primCx lstmPCx.c0 (lstmPCx.cs.map (fun c2 => (c2, fun _ _ _ => 0)))
            srcCx (fun _ _ _ => 0) (DynamicEmbedding_forward lstmPCx.dyn srcCx)).1 b
              ⟨1 - 1, by omega⟩ n j) +
          lstmPCx.convb (flatIdx t c)) ∧
    (∀ (b : Fin 1) (t : Fin 1),
      (LSTM_DSTGCRN_forward primCx lstmPCx (by omega) srcCx).2 b t =
        chainLastAdjAt primCx lstmPCx.c0 (lstmPCx.cs.map (fun c2 => (c2, fun _ _ _ => 0)))
          srcCx (fun _ _ _ => 0) (DynamicEmbedding_forward lstmPCx.dyn srcCx) t b)) :=
  ⟨by omega, C2_forward_pipeline primCx lstmPCx (by omega) srcCx⟩

/-- The adjacency output of the recurrent cell is the normalized Laplacian of
the learned adjacency computed by its gate (the support of index 1). -/
lemma cell_adj_eq {B N dIn dOut K E H1 H2 : ℕ} (P : Prim)
    (p : AGCRNCellParams dIn dOut K E H1 H2)
    (x : Fin B → Fin N → Fin dIn → ℚ) (state : Fin B → Fin N → Fin dOut → ℚ)
    (emb : Fin B → Fin N → Fin E → ℚ) (b : Fin B) :
    (AGCRNCell_forward P p x state emb).2 b =
      normalizedLaplacian P.rsqrt
        (fun i j => relu (∑ d,
          P.tanh (emb b i d * fcApply P p.gate (catVec (x b i) (state b i)) d) *
          P.tanh (emb b j d * fcApply P p.gate (catVec (x b j) (state b j)) d)))
        (eye N) := rfl

/-- With a single extra layer, the adjacency list of the encoder is the extra
layer's list. -/
lemma AVWDCRNN_adjs_single {B N T dIn dOut K E H1 H2 : ℕ} (P : Prim)
    (c0 : AGCRNCellParams dIn dOut K E H1 H2)
    (c1 : AGCRNCellParams dOut dOut K E H1 H2)
    (s1 : Fin B → Fin N → Fin dOut → ℚ)
    (x : Fin B → Fin T → Fin N → Fin dIn → ℚ)
    (s0 : Fin B → Fin N → Fin dOut → ℚ)
    (emb : Fin B → Fin T → Fin N → Fin E → ℚ) :
    (AVWDCRNN_forward P c0 [(c1, s1)] x s0 emb).2.2 =
      (runLayer P c1 (runLayer P c0 x emb s0).1 emb s1).2.2 := rfl

set_option maxRecDepth 8000 in
set_option maxHeartbeats 1600000 in
/-- Counterexample to C2 as stated: the adjacency matrices returned by
`LSTM_DSTGCRN.forward` are not "per layer/timestep" — only the last encoder
layer's list survives (`adjmatrices` is reset inside the layer loop of
`AVWDCRNN.forward`).  In this concrete two-layer model the first layer's
adjacency at the only timestep has entry `5/9` at `(0,0)` while the returned
adjacency there is the identity (entry `1`). -/
theorem C2_adjacency_counterexample :
    (LSTM_DSTGCRN_forward primCx lstmPCx (by omega) srcCx).2 0 0 ≠
      layerAdjAt primCx lstmPCx.c0 srcCx (DynamicEmbedding_forward lstmPCx.dyn srcCx)
        (fun _ _ _ => 0) 0 0 := by
  intro h
  have h0 := congrFun (congrFun h 0) 0
  have hmap : lstmPCx.cs.map
      (fun c2 => (c2, fun (_ : Fin 1) (_ : Fin 2) (_ : Fin 1) => (0 : ℚ))) =
      [(cellCxB, fun _ _ _ => 0)] := rfl
  have hL : (LSTM_DSTGCRN_forward primCx lstmPCx (by omega) srcCx).2 0 0 0 0 = 1 := by
    show (AVWDCRNN_forward primCx lstmPCx.c0 (lstmPCx.cs.map (fun c2 => (c2, fun _ _ _ => 0)))
      srcCx (fun _ _ _ => 0) (DynamicEmbedding_forward lstmPCx.dyn srcCx)).2.2.getD
        (0 : Fin 1).1 (fun _ _ _ => 0) 0 0 0 = 1
    rw [hmap, AVWDCRNN_adjs_single,
      runLayer_adjs_getD primCx cellCxB _ (DynamicEmbedding_forward lstmPCx.dyn srcCx)
        (fun _ _ _ => 0) (0 : Fin 1)]
    simp only [layerAdjAt]
    rw [cell_adj_eq]
    norm_num [fcApply, linApply, normalizedLaplacian, matMul, diagM, rowSum,
      eye, relu, max_def, primCx, cellCxB, avwZero, Fin.sum_univ_two, Fin.sum_univ_one]
  have hR : layerAdjAt primCx lstmPCx.c0 srcCx (DynamicEmbedding_forward lstmPCx.dyn srcCx)
      (fun _ _ _ => 0) 0 0 0 0 = 5/9 := by
    simp only [layerAdjAt]
    rw [cell_adj_eq]
    norm_num [fcApply, linApply, DynamicEmbedding_forward, flatIdx, unflat1, unflat2,
      normalizedLaplacian, matMul, diagM, rowSum, eye, relu, max_def, primCx, lstmPCx,
      dynCx, cellCxA, avwZero, srcCx, Fin.sum_univ_two, Fin.sum_univ_one]
  rw [hL, hR] at h0
  norm_num at h0

/-- Row-major unflattening undoes flattening (first component). -/
lemma unflat1_flatIdx {a b : ℕ} (i : Fin a) (j : Fin b) : unflat1 (flatIdx i j) = i := by
  apply Fin.ext
  show (i.1 * b + j.1) / b = i.1
  have hj := j.2
  have hb : 0 < b := by omega
  rw [Nat.mul_comm i.1 b, Nat.mul_add_div hb, Nat.div_eq_of_lt hj]
  omega

/-- Row-major unflattening undoes flattening (second component). -/
lemma unflat2_flatIdx {a b : ℕ} (i : Fin a) (j : Fin b) : unflat2 (flatIdx i j) = j := by
  apply Fin.ext
  show (i.1 * b + j.1) % b = j.1
  rw [Nat.mul_comm i.1 b, Nat.mul_add_mod]
  exact Nat.mod_eq_of_lt j.2

/-- C5: `DynamicEmbedding.forward` produces time-varying node embeddings of
shape `(B, T, N, E)`: the raw feature sequence of node `n` in batch element
`b` is passed through the GRU followed by `fc` when `gru_layer` is set, the
LSTM followed by `fc` when `lstm_layer` is set, and the two-layer MLP
`fc2 ∘ fc1` otherwise, followed by ReLU; self-attention over the time
dimension is applied if and only if `attention_layer` is set. -/
theorem C5_dynamic_embedding {B N T dIn hNode E : ℕ} (de : DynEmbParams T dIn hNode E)
    (x : Fin B → Fin T → Fin N → Fin dIn → ℚ)
    (b : Fin B) (t : Fin T) (n : Fin N) (e : Fin E) :
    DynamicEmbedding_forward de x b t n e =
      (let seq : Fin T → Fin dIn → ℚ := fun t2 c => x b t2 n c
       let branchOut : Fin T → Fin E → ℚ :=
         if de.gru_layer then fun t2 e2 => linApply de.fcw de.fcb (de.gru seq t2) e2
         else if de.lstm_layer then fun t2 e2 => linApply de.fcw de.fcb (de.lstm seq t2) e2
         else fun t2 e2 => linApply de.fc2w de.fc2b (linApply de.fc1w de.fc1b (seq t2)) e2
       if de.attention_layer then de.attn (fun t2 e2 => relu (branchOut t2 e2)) t e
       else relu (branchOut t e)) := by
  dsimp only [DynamicEmbedding_forward]
  cases hA : de.attention_layer <;> cases hG : de.gru_layer <;> cases hLm : de.lstm_layer <;>
    simp [hA, hG, hLm, unflat1_flatIdx, unflat2_flatIdx]

/-- Length of an elementwise three-list combination of equally long lists. -/
lemma zipWith3_length_eq (f : ℚ → ℚ → ℚ → ℚ) :
    ∀ (xs ys zs : List ℚ), xs.length = ys.length → xs.length = zs.length →
      (zipWith3 f xs ys zs).length = xs.length := by
  intro xs
  induction xs with
  | nil => intro ys zs _ _; rfl
  | cons x xs ih =>
    intro ys zs h1 h2
    cases ys with
    | nil => simp at h1
    | cons y ys =>
      cases zs with
      | nil => simp at h2
      | cons z zs =>
        simp only [zipWith3, List.length_cons]
        rw [ih ys zs (by simpa using h1) (by simpa using h2)]

/-- An elementwise transform followed by its positionwise inverse is the
identity on equally long lists. -/
lemma zipWith3_roundtrip (f g : ℚ → ℚ → ℚ → ℚ) :
    ∀ (xs ys zs : List ℚ), xs.length = ys.length → xs.length = zs.length →
      (∀ y z, (y, z) ∈ ys.zip zs → ∀ x2, g (f x2 y z) y z = x2) →
      zipWith3 g (zipWith3 f xs ys zs) ys zs = xs := by
  intro xs
  induction xs with
  | nil => intro ys zs _ _ _; rfl
  | cons x xs ih =>
    intro ys zs h1 h2 hinv
    cases ys with
    | nil => simp at h1
    | cons y ys =>
      cases zs with
      | nil => simp at h2
      | cons z zs =>
        simp only [zipWith3]
        rw [hinv y z (by simp [List.zip_cons_cons]) x]
        rw [ih ys zs (by simpa using h1) (by simpa using h2)
          (fun y2 z2 hm x2 => hinv y2 z2 (by simp [List.zip_cons_cons, hm]) x2)]

/-- C6: each non-identity scaler's `inverse_transform` undoes its `transform`
on numpy inputs whose shape matches the stored statistics: for
`StandardScaler` with nonzero `std`, and for `MinMax01Scaler` and
`MinMax11Scaler` with `max ≠ min` elementwise. -/
theorem C6_scaler_roundtrips (cast : ℚ → ℚ) :
    (∀ (s : StandardScaler) (d : Tensor),
       d.kind = TKind.np → s.mean.kind = TKind.np →
       d.vals.length = s.mean.vals.length → d.vals.length = s.std.vals.length →
       (∀ q ∈ s.std.vals, q ≠ 0) →
       (StandardScaler.inverse_transform cast s (StandardScaler.transform s d)).2 = d) ∧
    (∀ (s : MinMax01Scaler) (d : Tensor),
       d.kind = TKind.np →
       d.vals.length = s.min.vals.length → d.vals.length = s.max.vals.length →
       (∀ mn mx, (mn, mx) ∈ s.min.vals.zip s.max.vals → mx ≠ mn) →
       (MinMax01Scaler.inverse_transform cast s (MinMax01Scaler.transform s d)).2 = d) ∧
    (∀ (s : MinMax11Scaler) (d : Tensor),
       d.kind = TKind.np →
       d.vals.length = s.min.vals.length → d.vals.length = s.max.vals.length →
       (∀ mn mx, (mn, mx) ∈ s.min.vals.zip s.max.vals → mx ≠ mn) →
       (MinMax11Scaler.inverse_transform cast s (MinMax11Scaler.transform s d)).2 = d) := by
  refine ⟨?_, ?_, ?_⟩
  · rintro ⟨⟨mk, mv⟩, ⟨sk, sv⟩⟩ ⟨dk, dv⟩ hd hm h1 h2 hnz
    simp only at hd hm h1 h2 hnz
    subst hd hm
    simp only [StandardScaler.transform, StandardScaler.inverse_transform,
      zipWith3_length_eq _ dv mv sv h1 h2, ne_eq, h1, not_true_eq_false, if_false,
      and_self, if_true, Tensor.mk.injEq, true_and]
    exact zipWith3_roundtrip _ _ dv mv sv h1 h2
      (fun y z hm2 x2 => by
        have hz : z ≠ 0 := hnz z (List.of_mem_zip hm2).2
        field_simp)
  · rintro ⟨⟨mk, mv⟩, ⟨xk, xv⟩⟩ ⟨dk, dv⟩ hd h1 h2 hne
    simp only at hd h1 h2 hne
    subst hd
    simp only [MinMax01Scaler.transform, MinMax01Scaler.inverse_transform, ite_self]
    rw [if_neg (by simp)]
    simp only [Tensor.mk.injEq, true_and]
    exact zipWith3_roundtrip _ _ dv mv xv h1 h2
      (fun y z hm2 x2 => by
        have hz : z - y ≠ 0 := sub_ne_zero_of_ne (hne y z hm2)
        field_simp)
  · rintro ⟨⟨mk, mv⟩, ⟨xk, xv⟩⟩ ⟨dk, dv⟩ hd h1 h2 hne
    simp only at hd h1 h2 hne
    subst hd
    simp only [MinMax11Scaler.transform, MinMax11Scaler.inverse_transform]
    rw [if_neg (by simp)]
    simp only [Tensor.mk.injEq, true_and]
    exact zipWith3_roundtrip _ _ dv mv xv h1 h2
      (fun y z hm2 x2 => by
        have hz : z - y ≠ 0 := sub_ne_zero_of_ne (hne y z hm2)
        field_simp
        ring)

/-- Witness for `C6_scaler_roundtrips` with concrete scalers and data. -/
theorem C6_scaler_roundtrips_witness :
    (StandardScaler.inverse_transform (fun q => q)
      ⟨⟨TKind.np, [1, 2]⟩, ⟨TKind.np, [3, 4]⟩⟩
      (StandardScaler.transform ⟨⟨TKind.np, [1, 2]⟩, ⟨TKind.np, [3, 4]⟩⟩
        ⟨TKind.np, [5, 6]⟩)).2 = ⟨TKind.np, [5, 6]⟩ ∧
    (MinMax01Scaler.inverse_transform (fun q => q)
      ⟨⟨TKind.np, [0, 1]⟩, ⟨TKind.np, [2, 3]⟩⟩
      (MinMax01Scaler.transform ⟨⟨TKind.np, [0, 1]⟩, ⟨TKind.np, [2, 3]⟩⟩
        ⟨TKind.np, [5, 6]⟩)).2 = ⟨TKind.np, [5, 6]⟩ ∧
    (MinMax11Scaler.inverse_transform (fun q => q)
      ⟨⟨TKind.np, [0, 1]⟩, ⟨TKind.np, [2, 3]⟩⟩
      (MinMax11Scaler.transform ⟨⟨TKind.np, [0, 1]⟩, ⟨TKind.np, [2, 3]⟩⟩
        ⟨TKind.np, [5, 6]⟩)).2 = ⟨TKind.np, [5, 6]⟩ :=
  ⟨(C6_scaler_roundtrips (fun q => q)).1 ⟨⟨TKind.np, [1, 2]⟩, ⟨TKind.np, [3, 4]⟩⟩
      ⟨TKind.np, [5, 6]⟩ rfl rfl rfl rfl (by norm_num),
   (C6_scaler_roundtrips (fun q => q)).2.1 ⟨⟨TKind.np, [0, 1]⟩, ⟨TKind.np, [2, 3]⟩⟩
      ⟨TKind.np, [5, 6]⟩ rfl rfl rfl
      (by intro mn mx hm2; simp at hm2; rcases hm2 with ⟨rfl, rfl⟩ | ⟨rfl, rfl⟩ <;> norm_num),
   (C6_scaler_roundtrips (fun q => q)).2.2 ⟨⟨TKind.np, [0, 1]⟩, ⟨TKind.np, [2, 3]⟩⟩
      ⟨TKind.np, [5, 6]⟩ rfl rfl rfl
      (by intro mn mx hm2; simp at hm2; rcases hm2 with ⟨rfl, rfl⟩ | ⟨rfl, rfl⟩ <;> norm_num)⟩

/-- C9: `StandardScaler.inverse_transform` mutates the scaler state: on numpy
data whose last dimension is smaller than the stored mean's, it permanently
slices `self.mean` and `self.std` down to that dimension; on torch data with
numpy statistics it permanently replaces them by their (float32) torch
conversions; in all remaining cases the statistics stay unchanged.  The
scaler is assumed well formed (`mean` and `std` of equal length and kind). -/
theorem C9_inverse_transform_mutation (cast : ℚ → ℚ) (s : StandardScaler) (d : Tensor)
    (hwf : s.mean.vals.length = s.std.vals.length) (hks : s.mean.kind = s.std.kind) :
    ((d.kind = TKind.np ∧ s.mean.kind = TKind.np ∧ d.vals.length < s.mean.vals.length) →
       (StandardScaler.inverse_transform cast s d).1 =
         ⟨⟨TKind.np, s.mean.vals.take d.vals.length⟩,
          ⟨TKind.np, s.std.vals.take d.vals.length⟩⟩) ∧
    ((d.kind = TKind.torch ∧ s.mean.kind = TKind.np) →
       (StandardScaler.inverse_transform cast s d).1 =
         ⟨⟨TKind.torch, s.mean.vals.map cast⟩, ⟨TKind.torch, s.std.vals.map cast⟩⟩) ∧
    ((¬(d.kind = TKind.np ∧ s.mean.kind = TKind.np ∧ d.vals.length < s.mean.vals.length)) →
     (¬(d.kind = TKind.torch ∧ s.mean.kind = TKind.np)) →
       (StandardScaler.inverse_transform cast s d).1 = s) := by
  obtain ⟨⟨mk, mv⟩, ⟨sk2, sv⟩⟩ := s
  obtain ⟨dk, dv⟩ := d
  simp only at hwf hks
  refine ⟨?_, ?_, ?_⟩
  · rintro ⟨hd, hm, hlen⟩
    simp only at hd hm hlen
    subst hd hm
    simp only [StandardScaler.inverse_transform, and_self, if_true]
    rw [if_pos (Nat.ne_of_lt hlen)]
  · rintro ⟨hd, hm⟩
    simp only at hd hm
    subst hd hm
    simp only [StandardScaler.inverse_transform]
    rw [if_neg (by simp), if_pos (by simp)]
  · intro h1 h2
    cases dk <;> cases mk
    · have hge : mv.length ≤ dv.length := by
        by_contra hlt
        exact h1 ⟨rfl, rfl, show dv.length < mv.length by omega⟩
      simp only [StandardScaler.inverse_transform, and_self, if_true]
      by_cases heq : dv.length = mv.length
      · rw [if_neg (by simp [heq])]
      · rw [if_pos (by simpa using heq)]
        subst hks
        simp only [StandardScaler.mk.injEq, Tensor.mk.injEq, true_and]
        exact ⟨List.take_of_length_le hge, List.take_of_length_le (by omega)⟩
    · simp only [StandardScaler.inverse_transform]
      rw [if_neg (by simp), if_neg (by simp)]
    · exact absurd ⟨rfl, rfl⟩ h2
    · simp only [StandardScaler.inverse_transform]
      rw [if_neg (by simp), if_neg (by simp)]

/-- Witness for `C9_inverse_transform_mutation`: a torch tensor against numpy
statistics, whose inverse transform torchifies the stored statistics. -/
theorem C9_inverse_transform_mutation_witness :
    ((⟨TKind.torch, [5]⟩ : Tensor).kind = TKind.np ∧
        (⟨⟨TKind.np, [1, 2]⟩, ⟨TKind.np, [3, 4]⟩⟩ : StandardScaler).mean.kind = TKind.np ∧
        (⟨TKind.torch, [5]⟩ : Tensor).vals.length < ([1, 2] : List ℚ).length →
      (StandardScaler.inverse_transform (fun q => q)
        ⟨⟨TKind.np, [1, 2]⟩, ⟨TKind.np, [3, 4]⟩⟩ ⟨TKind.torch, [5]⟩).1 =
        ⟨⟨TKind.np, ([1, 2] : List ℚ).take 1⟩, ⟨TKind.np, ([3, 4] : List ℚ).take 1⟩⟩) ∧
    ((⟨TKind.torch, [5]⟩ : Tensor).kind = TKind.torch ∧
        (⟨⟨TKind.np, [1, 2]⟩, ⟨TKind.np, [3, 4]⟩⟩ : StandardScaler).mean.kind = TKind.np →
      (StandardScaler.inverse_transform (fun q => q)
        ⟨⟨TKind.np, [1, 2]⟩, ⟨TKind.np, [3, 4]⟩⟩ ⟨TKind.torch, [5]⟩).1 =
        ⟨⟨TKind.torch, ([1, 2] : List ℚ).map (fun q => q)⟩,
         ⟨TKind.torch, ([3, 4] : List ℚ).map (fun q => q)⟩⟩) ∧
    ((¬((⟨TKind.torch, [5]⟩ : Tensor).kind = TKind.np ∧
        (⟨⟨TKind.np, [1, 2]⟩, ⟨TKind.np, [3, 4]⟩⟩ : StandardScaler).mean.kind = TKind.np ∧
        (⟨TKind.torch, [5]⟩ : Tensor).vals.length < ([1, 2] : List ℚ).length)) →
     (¬((⟨TKind.torch, [5]⟩ : Tensor).kind = TKind.torch ∧
        (⟨⟨TKind.np, [1, 2]⟩, ⟨TKind.np, [3, 4]⟩⟩ : StandardScaler).mean.kind = TKind.np)) →
      (StandardScaler.inverse_transform (fun q => q)
        ⟨⟨TKind.np, [1, 2]⟩, ⟨TKind.np, [3, 4]⟩⟩ ⟨TKind.torch, [5]⟩).1 =
        ⟨⟨TKind.np, [1, 2]⟩, ⟨TKind.np, [3, 4]⟩⟩) :=
  C9_inverse_transform_mutation (fun q => q) ⟨⟨TKind.np, [1, 2]⟩, ⟨TKind.np, [3, 4]⟩⟩
    ⟨TKind.torch, [5]⟩ (by simp) (by simp)

/-- Indexing an elementwise three-list combination within bounds. -/
lemma zipWith3_getD (f : ℚ → ℚ → ℚ → ℚ) :
    ∀ (xs ys zs : List ℚ) (i : ℕ) (dflt : ℚ), i < xs.length → i < ys.length →
      i < zs.length →
      (zipWith3 f xs ys zs).getD i dflt =
        f (xs.getD i dflt) (ys.getD i dflt) (zs.getD i dflt) := by
  intro xs
  induction xs with
  | nil => intro ys zs i dflt h1 _ _; simp at h1
  | cons x xs ih =>
    intro ys zs i dflt h1 h2 h3
    cases ys with
    | nil => simp at h2
    | cons y ys =>
      cases zs with
      | nil => simp at h3
      | cons z zs =>
        cases i with
        | zero => rfl
        | succ i =>
          simp only [zipWith3, List.getD_cons_succ]
          exact ih ys zs i dflt (by simpa using h1) (by simpa using h2) (by simpa using h3)

/-- C10: the `ColumnMinMaxScaler` constructor replaces each zero entry of
`max - min` by `1`, so every entry of `self.min_max` is nonzero and no
division by zero occurs in `transform`; on a constant column
(`max = min` at position `i`), `transform` returns `data - min` there. -/
theorem C10_column_minmax_nonzero (mn mx d : List ℚ) :
    (∀ q ∈ (ColumnMinMaxScaler.ofMinMax mn mx).min_max, q ≠ 0) ∧
    (∀ i : ℕ, i < d.length → i < mn.length → i < mx.length →
       mx.getD i 0 = mn.getD i 0 →
       (ColumnMinMaxScaler.transform (ColumnMinMaxScaler.ofMinMax mn mx) d).getD i 0 =
         d.getD i 0 - mn.getD i 0) := by
  constructor
  · intro q hq
    simp only [ColumnMinMaxScaler.ofMinMax, List.mem_map] at hq
    obtain ⟨a, _, ha⟩ := hq
    by_cases h0 : a = 0
    · rw [← ha, if_pos h0]; norm_num
    · rw [← ha, if_neg h0]; exact h0
  · intro i hd hmn hmx heq
    have hzl : i < (List.zipWith (fun a b => a - b) mx mn).length := by
      rw [List.length_zipWith]
      exact lt_min hmx hmn
    have hmm : i < (ColumnMinMaxScaler.ofMinMax mn mx).min_max.length := by
      simpa [ColumnMinMaxScaler.ofMinMax] using hzl
    have hval : (ColumnMinMaxScaler.ofMinMax mn mx).min_max.getD i 0 = 1 := by
      show ((List.zipWith (fun a b => a - b) mx mn).map
        (fun q => if q = 0 then 1 else q)).getD i 0 = 1
      rw [List.getD_eq_getElem _ _ (by simpa using hzl), List.getElem_map,
        List.getElem_zipWith]
      rw [List.getD_eq_getElem _ _ hmx, List.getD_eq_getElem _ _ hmn] at heq
      rw [if_pos (by rw [heq]; ring)]
    show (zipWith3 _ d (ColumnMinMaxScaler.ofMinMax mn mx).min
      (ColumnMinMaxScaler.ofMinMax mn mx).min_max).getD i 0 = _
    rw [show (ColumnMinMaxScaler.ofMinMax mn mx).min = mn from rfl]
    rw [zipWith3_getD _ d mn _ i 0 hd hmn hmm, hval]
    rw [div_one]

/-- Witness for `C10_column_minmax_nonzero` on a concrete constant column. -/
theorem C10_column_minmax_nonzero_witness :
    (∀ q ∈ (ColumnMinMaxScaler.ofMinMax [1, 2] [1, 5]).min_max, q ≠ 0) ∧
    (ColumnMinMaxScaler.transform (ColumnMinMaxScaler.ofMinMax [1, 2] [1, 5])
        [3, 4]).getD 0 0 =
      ([3, 4] : List ℚ).getD 0 0 - ([1, 2] : List ℚ).getD 0 0 :=
  ⟨(C10_column_minmax_nonzero [1, 2] [1, 5] [3, 4]).1,
   (C10_column_minmax_nonzero [1, 2] [1, 5] [3, 4]).2 0 (by norm_num) (by norm_num)
     (by norm_num) (by norm_num)⟩

/-- Indexing a flattened list of blocks at the offset of block `k` plus `t`
lands at position `t` inside block `k`. -/
lemma flatten_getD_block (dflt : ℚ) :
    ∀ (l : List (List ℚ)) (k t : ℕ), k < l.length → t < (l.getD k []).length →
      l.flatten.getD (((l.take k).map List.length).sum + t) dflt =
        (l.getD k []).getD t dflt := by
  intro l
  induction l with
  | nil => intro k t hk _; simp at hk
  | cons x xs ih =>
    intro k t hk ht
    cases k with
    | zero =>
      simp only [List.take_zero, List.map_nil, List.sum_nil, Nat.zero_add, List.flatten_cons]
      rw [List.getD_append _ _ _ _ (by simpa using ht)]
      rfl
    | succ k =>
      simp only [List.take_succ_cons, List.map_cons, List.sum_cons, List.flatten_cons]
      rw [Nat.add_assoc]
      rw [List.getD_append_right _ _ _ _ (by omega)]
      have harith : x.length + ((List.map List.length (xs.take k)).sum + t) - x.length =
          (List.map List.length (xs.take k)).sum + t := by omega
      rw [harith]
      exact ih k t (by simpa using hk) (by simpa using ht)

/-- C7: for a nonempty 2D integer array, `one_hot_by_column` returns rows of
length `sum over columns i of (max_i - min_i + 1)`; within the block of
columns allocated to input column `i`, row `j` has a `1` exactly at offset
`data[j, i] - min_i` (which always lies inside the block) and `0` everywhere
else, with blocks concatenated left to right in column order. -/
theorem C7_one_hot_by_column {L C : ℕ} (hL : 0 < L) (data : Fin L → Fin C → ℤ) :
    (∀ j : Fin L, (one_hot_by_column hL data j).length =
      ((List.finRange C).map (blockWidth hL data)).sum) ∧
    (∀ (j : Fin L) (i : Fin C),
      (data j i - colMin hL (fun r => data r i)).toNat < blockWidth hL data i) ∧
    (∀ (j : Fin L) (i : Fin C) (t : ℕ), t < blockWidth hL data i →
      (one_hot_by_column hL data j).getD (blockOffset hL data i + t) 0 =
        if (data j i - colMin hL (fun r => data r i)).toNat = t then 1 else 0) := by
  have hwidth : ∀ (j : Fin L) (i : Fin C),
      (data j i - colMin hL (fun r => data r i)).toNat < blockWidth hL data i := by
    intro j i
    have hmin : colMin hL (fun r => data r i) ≤ data j i :=
      Finset.inf'_le (fun r => data r i) (Finset.mem_univ j)
    have hmax : data j i ≤ colMax hL (fun r => data r i) :=
      Finset.le_sup' (fun r => data r i) (Finset.mem_univ j)
    simp only [blockWidth]
    omega
  refine ⟨?_, hwidth, ?_⟩
  · intro j
    simp only [one_hot_by_column, List.length_flatten, List.map_map]
    congr 1
    apply List.map_congr_left
    intro a _
    simp [Function.comp, oneHotBlock, blockWidth]
  · intro j i t ht
    have hblock : ((List.finRange C).map
        (fun i2 => oneHotBlock hL (fun r => data r i2) j)).getD i.1 [] =
        oneHotBlock hL (fun r => data r i) j := by
      rw [List.getD_eq_getElem _ _ (by simp [i.2]), List.getElem_map]
      have hlt : i.1 < (List.finRange C).length := by simp [i.2]
      have hidx : (List.finRange C)[i.1] = i := by
        rw [List.getElem_finRange]
        apply Fin.ext
        simp
      rw [hidx]
    have hoff : blockOffset hL data i =
        ((((List.finRange C).map
          (fun i2 => oneHotBlock hL (fun r => data r i2) j)).take i.1).map
            List.length).sum := by
      simp only [blockOffset, ← List.map_take, List.map_map]
      congr 1
      apply List.map_congr_left
      intro a _
      simp [Function.comp, oneHotBlock, blockWidth]
    have hlen : t < (((List.finRange C).map
        (fun i2 => oneHotBlock hL (fun r => data r i2) j)).getD i.1 []).length := by
      rw [hblock]
      simpa [oneHotBlock, blockWidth] using ht
    show (((List.finRange C).map
      (fun i2 => oneHotBlock hL (fun r => data r i2) j)).flatten).getD
        (blockOffset hL data i + t) 0 = _
    rw [hoff, flatten_getD_block 0 _ i.1 t (by simp [i.2]) hlen, hblock]
    simp only [oneHotBlock]
    rw [List.getD_eq_getElem _ _ (by simpa [blockWidth] using ht), List.getElem_map,
      List.getElem_range]

/-- Witness for `C7_one_hot_by_column` on the concrete array
`[[0, 5], [1, 5]]` (`dataC7`). -/
theorem C7_one_hot_by_column_witness :
    0 < 2 ∧
    ((one_hot_by_column (by omega) dataC7 ⟨0, by omega⟩).length =
      ((List.finRange 2).map (blockWidth (by omega) dataC7)).sum) ∧
    ((one_hot_by_column (by omega) dataC7 ⟨0, by omega⟩).getD
        (blockOffset (by omega) dataC7 ⟨1, by omega⟩ +
          (dataC7 ⟨0, by omega⟩ ⟨1, by omega⟩ -
            colMin (by omega) (fun r => dataC7 r ⟨1, by omega⟩)).toNat) 0 =
      if (dataC7 ⟨0, by omega⟩ ⟨1, by omega⟩ -
            colMin (by omega) (fun r => dataC7 r ⟨1, by omega⟩)).toNat =
          (dataC7 ⟨0, by omega⟩ ⟨1, by omega⟩ -
            colMin (by omega) (fun r => dataC7 r ⟨1, by omega⟩)).toNat
      then 1 else 0) :=
  ⟨by omega,
   (C7_one_hot_by_column (by omega) dataC7).1 ⟨0, by omega⟩,
   (C7_one_hot_by_column (by omega) dataC7).2.2 ⟨0, by omega⟩ ⟨1, by omega⟩ _
     ((C7_one_hot_by_column (by omega) dataC7).2.1 ⟨0, by omega⟩ ⟨1, by omega⟩)⟩
